import Mathlib

/-!
BitsApriori: bit-vector itemsets and the Apriori driver.

A shallow embedding of `src/main.cpp`.

Conventions of the embedding.

* `std::vector<uint8_t>` is a `List Nat`; a store into a `uint8_t` is written `% 256`,
  and `Itemset.WellFormed` records that every stored block is below `256`.
* `size_t` is 64 bits wide: the fold of `GetEncodedVal` is taken `% 2 ^ 64`. A shift of a
  `size_t` by 64 bits or more is undefined in C++; the model shifts by the count modulo 64,
  as the shift instruction of the compiled program does. Where no position from 64 on is
  held the shifted blocks are zero and the choice has no effect.
* An indexed read `v[i]` outside the vector has no defined result in C++; `HasItem`
  therefore returns an `Option`, `none` standing for the out-of-bounds read.
* The globals `ITEMS` and `TRANSACTIONS` are explicit arguments.
* An `unordered_map` is the list of its entries in its iteration order. The language does
  not fix that order, so `Items.AddItem` takes the order that follows the insertion as an
  argument.
* `float` values are modelled by `FloatVal`: exact rationals together with `+inf`, `-inf`
  and `NaN`. Rounding of finite results is not modelled.
* The counter `int frequency` of `Support` is a natural number: collections of `2 ^ 31`
  transactions are not considered.
* Text written to `std::cout` is modelled by the value that is printed (the list of rules
  whose `ToString` is written), not by the characters.
-/

namespace BitsApriori

/-! ## Itemset -/

/-- Class `Itemset`: the blocks of the binary encoding, least significant block first. -/
structure Itemset where
  m_Blocks : List Nat
deriving DecidableEq

namespace Itemset

/-- Every block fits a `uint8_t`. -/
def WellFormed (s : Itemset) : Prop := ∀ b ∈ s.m_Blocks, b < 256

instance (s : Itemset) : Decidable s.WellFormed := by
  unfold WellFormed; exact inferInstance

/-- The value built by `Itemset itemset;`. -/
def empty : Itemset := ⟨[]⟩

/-- Method `Itemset::GetBlocks`. -/
def GetBlocks (s : Itemset) : List Nat := s.m_Blocks

/-- Method `Itemset::AddItem` (lines 65-75). When the block of `position` is not in storage the
`for` loop pushes `blockNo + 1` zero blocks; then the bit is set in block `blockNo`. -/
def AddItem (s : Itemset) (position : Nat) : Itemset :=
  let blockNo := position / 8
  let blocks :=
    if blockNo ≥ s.m_Blocks.length then s.m_Blocks ++ List.replicate (blockNo + 1) 0
    else s.m_Blocks
  let shift := position % 8
  ⟨blocks.set blockNo ((blocks.getD blockNo 0 ||| (1 <<< shift)) % 256)⟩

/-- Method `Itemset::AddBlock` (lines 78-81). -/
def AddBlock (s : Itemset) (block : Nat) : Itemset := ⟨s.m_Blocks ++ [block]⟩

/-- The `while (blocks.size() > m_Blocks.size()) AddBlock(0)` loop of `AddItemset`, run
for its `k` iterations. -/
def padBlocks : Nat → Itemset → Itemset
  | 0, s => s
  | k + 1, s => padBlocks k (s.AddBlock 0)

/-- The `for (i = 0; i < blocks.size(); i++) m_Blocks[i] |= blocks[i]` loop of
`AddItemset`. -/
def orBlocks (mine blocks : List Nat) : List Nat :=
  (List.range blocks.length).foldl
    (fun m i => m.set i ((m.getD i 0 ||| blocks.getD i 0) % 256)) mine

/-- Method `Itemset::AddItemset` (lines 84-95). -/
def AddItemset (s itemset : Itemset) : Itemset :=
  let blocks := itemset.GetBlocks
  let padded := padBlocks (blocks.length - s.m_Blocks.length) s
  ⟨orBlocks padded.m_Blocks blocks⟩

/-- Method `Itemset::HasItem` (lines 98-104). The read `m_Blocks[blockNo]` is unchecked: `none`
is the read past the end of the vector. -/
def HasItem (s : Itemset) (position : Nat) : Option Bool :=
  let blockNo := position / 8
  let shift := position % 8
  s.m_Blocks[blockNo]?.map (fun b => (b &&& (1 <<< shift)) != 0)

/-- Method `Itemset::GetEncodedVal` (lines 110-120): the blocks folded into one `size_t`.
From block 8 on the shift count `i * 8` is 64 or more, which C++ leaves undefined; the
compiled program shifts by the count modulo 64, so that block `i` lands on byte `i % 8`, and
so does the model. -/
def GetEncodedVal (s : Itemset) : Nat :=
  (List.range s.m_Blocks.length).foldl
    (fun encodedVal i =>
      encodedVal ||| ((s.m_Blocks.getD i 0) <<< ((i * 8) % 64)) % 2 ^ 64) 0

/-- Method `Itemset::IsEqual` (line 107). -/
def IsEqual (s itemset : Itemset) : Bool := itemset.GetEncodedVal == s.GetEncodedVal

/-- Membership as the claims read it: a position beyond the storage counts as absent. -/
def member (s : Itemset) (position : Nat) : Bool := (s.HasItem position).getD false

end Itemset

/-! ## Floating-point values -/

/-- A `float`: a finite value (kept exact), an infinity, or `NaN`. There is one zero; the
program only ever divides non-negative values, so the sign of a zero is never observed. -/
inductive FloatVal where
  | fin (q : ℚ)
  | posInf
  | negInf
  | nan
deriving DecidableEq

namespace FloatVal

/-- The conversion `(float)n` of a non-negative integer. -/
def ofNat (n : Nat) : FloatVal := fin n

/-- Division of two `float`s: `x / 0` is an infinity for `x ≠ 0`, and `0 / 0`, `inf / inf`
and every quotient with a `NaN` operand are `NaN`. -/
def div : FloatVal → FloatVal → FloatVal
  | nan, _ => nan
  | _, nan => nan
  | fin a, fin b =>
    if b = 0 then (if a = 0 then nan else if 0 < a then posInf else negInf) else fin (a / b)
  | fin _, posInf => fin 0
  | fin _, negInf => fin 0
  | posInf, fin b => if 0 ≤ b then posInf else negInf
  | negInf, fin b => if 0 ≤ b then negInf else posInf
  | posInf, posInf => nan
  | posInf, negInf => nan
  | negInf, posInf => nan
  | negInf, negInf => nan

/-- The comparison `a < b`; false when an operand is `NaN`. -/
def lt : FloatVal → FloatVal → Bool
  | nan, _ => false
  | _, nan => false
  | fin a, fin b => decide (a < b)
  | fin _, posInf => true
  | fin _, negInf => false
  | posInf, _ => false
  | negInf, fin _ => true
  | negInf, posInf => true
  | negInf, negInf => false

/-- The comparison `a <= b`; false when an operand is `NaN`. -/
def le : FloatVal → FloatVal → Bool
  | nan, _ => false
  | _, nan => false
  | fin a, fin b => decide (a ≤ b)
  | fin _, posInf => true
  | fin _, negInf => false
  | posInf, posInf => true
  | posInf, fin _ => false
  | posInf, negInf => false
  | negInf, _ => true

/-- The comparison `a >= b`. -/
def ge (a b : FloatVal) : Bool := le b a

/-- The comparison `a > b`. -/
def gt (a b : FloatVal) : Bool := lt b a

end FloatVal

/-! ## Items -/

/-- Class `Items`. `m_Items` lists the entries of the `unordered_map` in the order in which
the container iterates over them. -/
structure Items where
  m_Items : List (String × Nat)
  m_InsertIndex : Nat
deriving DecidableEq

namespace Items

/-- Method `Items::GetIndex` (line 16): `m_Items[item]`. For a label that is not a key
`operator[]` yields a value-initialised `0` (and would insert that entry); every call in the
program passes a label that is a key. -/
def GetIndex (self : Items) (item : String) : Nat := (self.m_Items.lookup item).getD 0

/-- The value of `static Items ITEMS;` before any insertion. -/
def empty : Items := ⟨[], 0⟩

/-- Method `Items::AddItem` (lines 31-38). Where an `unordered_map` places a new entry in its
iteration order, and whether the old entries keep their places, is not fixed by the language:
`order` is the iteration order after the insertion. It is taken when it is a rearrangement of
the entries; otherwise the new entry comes first. -/
def AddItem (self : Items) (item : String) (order : List (String × Nat)) : Items :=
  if (self.m_Items.map Prod.fst).count item = 0 then
    ⟨if order.Perm ((item, self.m_InsertIndex) :: self.m_Items) then order
      else (item, self.m_InsertIndex) :: self.m_Items,
     self.m_InsertIndex + 1⟩
  else self

/-- Method `Items::GetCount` (line 41). -/
def GetCount (self : Items) : Nat := self.m_InsertIndex

/-- Method `Items::GetAll` (lines 44-53): the keys in the iteration order of the container. -/
def GetAll (self : Items) : List String :=
  self.m_Items.foldl (fun items pair => items ++ [pair.1]) []

end Items

/-! ## Rules -/

/-- Class `Rule`: `antecedent : consequent`. -/
structure Rule where
  antecedent : List String
  consequent : List String
deriving DecidableEq

namespace Rule

/-- Method `Rule::GetAntecedent` (lines 176-184). -/
def GetAntecedent (ITEMS : Items) (r : Rule) : Itemset :=
  r.antecedent.foldl (fun items item => items.AddItem (ITEMS.GetIndex item)) Itemset.empty

/-- Method `Rule::GetConsequent` (lines 186-194). -/
def GetConsequent (ITEMS : Items) (r : Rule) : Itemset :=
  r.consequent.foldl (fun items item => items.AddItem (ITEMS.GetIndex item)) Itemset.empty

/-- Method `Rule::ToItemset` (lines 197-208). -/
def ToItemset (ITEMS : Items) (r : Rule) : Itemset :=
  r.consequent.foldl (fun items item => items.AddItem (ITEMS.GetIndex item))
    (r.antecedent.foldl (fun items item => items.AddItem (ITEMS.GetIndex item)) Itemset.empty)

end Rule

/-! ## The Apriori driver -/

/-- The data members of class `Apriori` (line 419). -/
structure Apriori where
  m_MinSupport : FloatVal
  m_MinConfidence : FloatVal
  m_MinLift : FloatVal

/-- What the constructor of `Apriori` computes: the loop counter on leaving the mining
loop, whether the iteration-cap warning is written, the frequent level `l0` computed before
the loop, the final `frequentItemsets`, and the listing written for them: for each frequent
set its member labels and every rule built from them, flagged with whether it is printed.
The listing is `none` when a `HasItem` call in it reads past the storage. -/
structure AprioriOutput where
  i : Nat
  warning : Bool
  level0 : List Itemset
  frequentItemsets : List Itemset
  listing : Option (List (List String × List (Rule × Bool)))
deriving DecidableEq

namespace Apriori

/-- The constant member `_MAX_ITR` (line 420). -/
def _MAX_ITR : Nat := 10

/-- Method `Apriori::Support` (lines 395-406). -/
def Support (_self : Apriori) (TRANSACTIONS : List Itemset) (itemset : Itemset) : FloatVal :=
  let frequency := TRANSACTIONS.foldl
    (fun frequency transaction =>
      if (itemset.GetEncodedVal &&& transaction.GetEncodedVal) == itemset.GetEncodedVal
      then frequency + 1 else frequency) 0
  FloatVal.div (FloatVal.ofNat frequency) (FloatVal.ofNat TRANSACTIONS.length)

/-- The value of the counter `frequency` of `Support` after its loop, as a count. -/
def frequency (TRANSACTIONS : List Itemset) (itemset : Itemset) : Nat :=
  TRANSACTIONS.countP
    (fun t => (itemset.GetEncodedVal &&& t.GetEncodedVal) == itemset.GetEncodedVal)

/-- Method `Apriori::Confidence` (lines 408-411). -/
def Confidence (self : Apriori) (ITEMS : Items) (TRANSACTIONS : List Itemset) (rule : Rule) :
    FloatVal :=
  FloatVal.div (self.Support TRANSACTIONS (rule.ToItemset ITEMS))
    (self.Support TRANSACTIONS (rule.GetAntecedent ITEMS))

/-- Method `Apriori::Lift` (lines 413-416). -/
def Lift (self : Apriori) (ITEMS : Items) (TRANSACTIONS : List Itemset) (rule : Rule) :
    FloatVal :=
  FloatVal.div (self.Confidence ITEMS TRANSACTIONS rule)
    (self.Support TRANSACTIONS (rule.GetConsequent ITEMS))

/-- Method `Apriori::CandidateItemsets` (lines 293-321); the result is the new content of
`candidateSets`, which the function clears first. -/
def CandidateItemsets (_self : Apriori) (frequentSets : List Itemset) : List Itemset :=
  (List.range frequentSets.length).foldl
    (fun candidateSets i =>
      let valI := (frequentSets.getD i Itemset.empty).GetEncodedVal
      (List.range' i (frequentSets.length - i)).foldl
        (fun candidateSets j =>
          let valJ := (frequentSets.getD j Itemset.empty).GetEncodedVal
          if valI == valJ then candidateSets
          else candidateSets ++
            [(Itemset.empty.AddItemset (frequentSets.getD i Itemset.empty)).AddItemset
              (frequentSets.getD j Itemset.empty)])
        candidateSets)
    []

/-- Method `Apriori::FrequentItemsets` (lines 324-330); the result is the new content of
`frequentSets`, which the function clears first. -/
def FrequentItemsets (self : Apriori) (TRANSACTIONS : List Itemset)
    (candidateSets : List Itemset) : List Itemset :=
  candidateSets.foldl
    (fun frequentSets set =>
      if FloatVal.ge (self.Support TRANSACTIONS set) self.m_MinSupport
      then frequentSets ++ [set] else frequentSets)
    []

/-- The `for` loop of `Apriori::CalculateSubsets` (lines 340-352) from index `i` on, with
at most `n` iterations left. The recursive call `CalculateSubsets(A, result, subset, i + 1)`
is its `push_back` followed by its own loop. -/
def CalculateSubsetsLoop (A : List String) :
    Nat → List (List String) → List String → Nat → List (List String)
  | 0, result, _, _ => result
  | n + 1, result, subset, i =>
    if i < A.length then
      let subset1 := subset ++ [A.getD i ""]
      let result1 := CalculateSubsetsLoop A n (result ++ [subset1]) subset1 (i + 1)
      CalculateSubsetsLoop A n result1 subset (i + 1)
    else result

/-- Method `Apriori::CalculateSubsets` (lines 333-353): the loop runs `A.size() - index` times. -/
def CalculateSubsets (_self : Apriori) (A : List String) (result : List (List String))
    (subset : List String) (index : Nat) : List (List String) :=
  CalculateSubsetsLoop A (A.length - index) (result ++ [subset]) subset index

/-- Method `Apriori::Subsets` (lines 356-363). -/
def Subsets (self : Apriori) (A : List String) : List (List String) :=
  self.CalculateSubsets A [] [] 0

/-- Method `Apriori::GenerateRules` (lines 366-391). The result lists every `Rule` the function
builds, in order, with the value of the test `Confidence(rule) > m_MinConfidence` that
decides whether the rule is printed. -/
def GenerateRules (self : Apriori) (ITEMS : Items) (TRANSACTIONS : List Itemset)
    (itemset : List String) : List (Rule × Bool) :=
  (self.Subsets itemset).foldl
    (fun out subset =>
      if subset.length == 1 then out
      else
        (List.range' 1 (subset.length - 1)).foldl
          (fun out antecedentPtr =>
            let rule : Rule := ⟨subset.take antecedentPtr, subset.drop antecedentPtr⟩
            out ++ [(rule,
              FloatVal.gt (self.Confidence ITEMS TRANSACTIONS rule) self.m_MinConfidence)])
          out)
    []

/-- The rules `GenerateRules` prints. -/
def emittedRules (self : Apriori) (ITEMS : Items) (TRANSACTIONS : List Itemset)
    (itemset : List String) : List Rule :=
  ((self.GenerateRules ITEMS TRANSACTIONS itemset).filter (fun e => e.2)).map (fun e => e.1)

/-- The mining loop of the constructor (lines 258-267) with `n = _MAX_ITR - i` iterations
left; the state is `i`, `l0` and `frequentItemsets`. -/
def mineLoop (self : Apriori) (TRANSACTIONS : List Itemset) :
    Nat → Nat → List Itemset → List Itemset → Nat × List Itemset × List Itemset
  | 0, i, l0, frequentItemsets => (i, l0, frequentItemsets)
  | n + 1, i, l0, frequentItemsets =>
    let c0 := self.CandidateItemsets l0
    let l0 := self.FrequentItemsets TRANSACTIONS c0
    if l0.length == 0 then (i + 1, l0, frequentItemsets)
    else mineLoop self TRANSACTIONS n (i + 1) l0 l0

/-- The member listing of one frequent set (lines 276-284): the labels, in the order of
`GetAll`, whose position the set holds. -/
def frequentItems (ITEMS : Items) (frequentSet : Itemset) : Option (List String) :=
  ITEMS.GetAll.foldlM
    (fun frequentItems item =>
      (frequentSet.HasItem (ITEMS.GetIndex item)).map
        (fun b => if b then frequentItems ++ [item] else frequentItems))
    []

/-- The level-0 candidates (lines 246-251): one singleton per label of `GetAll`. -/
def initialCandidates (ITEMS : Items) : List Itemset :=
  ITEMS.GetAll.foldl
    (fun c0 item => c0 ++ [Itemset.empty.AddItem (ITEMS.GetIndex item)]) []

/-- The default argument `minLift = -1.0f` of the constructor. -/
def defaultMinLift : FloatVal := FloatVal.fin (-1)

set_option linter.dupNamespace false in
/-- The constructor `Apriori::Apriori` (lines 237-289). -/
def Apriori (ITEMS : Items) (TRANSACTIONS : List Itemset)
    (minSupport minConfidence minLift : FloatVal) : AprioriOutput :=
  let self : BitsApriori.Apriori := ⟨minSupport, minConfidence, minLift⟩
  let c0 := initialCandidates ITEMS
  let l0 := self.FrequentItemsets TRANSACTIONS c0
  let r := self.mineLoop TRANSACTIONS (_MAX_ITR - 0) 0 l0 []
  let frequentItemsets := r.2.2
  { i := r.1
    warning := r.1 == _MAX_ITR
    level0 := l0
    frequentItemsets := frequentItemsets
    listing := frequentItemsets.mapM (fun frequentSet =>
      (frequentItems ITEMS frequentSet).map
        (fun labels => (labels, self.GenerateRules ITEMS TRANSACTIONS labels))) }

end Apriori

/-! ## Specification-side notions -/

namespace Itemset

/-- Every position set in `a` is also set in `t`, decided over the storage of `a`. -/
def isSubsetOf (a t : Itemset) : Bool :=
  (List.range (8 * a.m_Blocks.length)).all (fun p => !a.member p || t.member p)

/-- No position from `n` on is set. -/
def PositionsBelow (s : Itemset) (n : Nat) : Prop := ∀ p, n ≤ p → s.member p = false

end Itemset

namespace Apriori

/-- The itemset that `CandidateItemsets` appends for a pair: a fresh itemset to which the
two operands are added. -/
def joined (a b : Itemset) : Itemset := (Itemset.empty.AddItemset a).AddItemset b

/-- The non-empty subsequences of a label list, in the order in which `CalculateSubsets`
reaches them: those that start with the first label, then those of the rest. -/
def laterSubsets : List String → List (List String)
  | [] => []
  | a :: tl => ([] :: laterSubsets tl).map (fun s => a :: s) ++ laterSubsets tl

/-- The prefix/suffix splits of one subset: for each split point `p` from `1` to the size
less one, the rule from `subset[0..p)` to `subset[p..size)`. -/
def splits (subset : List String) : List Rule :=
  (List.range' 1 (subset.length - 1)).map (fun p => ⟨subset.take p, subset.drop p⟩)

/-- The index pairs `i < j` of a level whose folded values differ, first by `i`, then by
`j`. -/
def candidatePairs (F : List Itemset) : List (Nat × Nat) :=
  (List.range F.length).flatMap
    (fun i =>
      ((List.range F.length).filter
        (fun j => decide (i < j)
          && (F.getD i Itemset.empty).GetEncodedVal != (F.getD j Itemset.empty).GetEncodedVal)).map
        (fun j => (i, j)))

end Apriori

namespace Items

/-- The labels of a sequence without their repetitions, in first-seen order. -/
def firstSeen (labels : List String) : List String :=
  labels.foldl (fun seen x => if x ∈ seen then seen else seen ++ [x]) []

/-- The state of the dictionary after the distinct labels `seen` were added in that order. -/
def Holds (self : Items) (seen : List String) : Prop :=
  seen.Nodup ∧ self.m_InsertIndex = seen.length
    ∧ self.m_Items.Perm (seen.zip (List.range seen.length))

/-- A run of `AddItem` calls, each given with the iteration order that follows it. -/
def addAll (self : Items) (calls : List (String × List (String × Nat))) : Items :=
  calls.foldl (fun it c => it.AddItem c.1 c.2) self

end Items

/-! ## Inputs of the evaluations -/

namespace Inputs

/-- The dictionary read from a file whose first line lists 66 labels: `A` and `B` at positions
0 and 1, `c2` to `c63` at positions 2 to 63, `X` at position 64 and `W` at position 65. -/
def wideItems : Items :=
  ⟨
    [("A", 0), ("B", 1), ("c2", 2), ("c3", 3), ("c4", 4), ("c5", 5), ("c6", 6), ("c7", 7),
      ("c8", 8), ("c9", 9), ("c10", 10), ("c11", 11), ("c12", 12), ("c13", 13), ("c14", 14),
      ("c15", 15), ("c16", 16), ("c17", 17), ("c18", 18), ("c19", 19), ("c20", 20),
      ("c21", 21), ("c22", 22), ("c23", 23), ("c24", 24), ("c25", 25), ("c26", 26),
      ("c27", 27), ("c28", 28), ("c29", 29), ("c30", 30), ("c31", 31), ("c32", 32),
      ("c33", 33), ("c34", 34), ("c35", 35), ("c36", 36), ("c37", 37), ("c38", 38),
      ("c39", 39), ("c40", 40), ("c41", 41), ("c42", 42), ("c43", 43), ("c44", 44),
      ("c45", 45), ("c46", 46), ("c47", 47), ("c48", 48), ("c49", 49), ("c50", 50),
      ("c51", 51), ("c52", 52), ("c53", 53), ("c54", 54), ("c55", 55), ("c56", 56),
      ("c57", 57), ("c58", 58), ("c59", 59), ("c60", 60), ("c61", 61), ("c62", 62),
      ("c63", 63), ("X", 64), ("W", 65)],
   66⟩

/-- The transactions of that file: line 1 lists the 66 labels, lines 2 and 3 are `A,B`,
line 4 is `X` and line 5 is `W`. -/
def wideTransactions : List Itemset :=
  [(List.range 66).foldl Itemset.AddItem Itemset.empty,
   (Itemset.empty.AddItem 0).AddItem 1,
   (Itemset.empty.AddItem 0).AddItem 1,
   Itemset.empty.AddItem 64,
   Itemset.empty.AddItem 65]

/-- The dictionary of the file with the lines `a0,a1`, `a0,a1` and `a2,a3,a4,a5,a6,a7,a8`,
enumerated with `a1` and `a8` first. -/
def nineItems : Items :=
  ⟨[("a1", 1), ("a8", 8), ("a0", 0), ("a2", 2), ("a3", 3), ("a4", 4), ("a5", 5), ("a6", 6),
    ("a7", 7)], 9⟩

/-- The transactions of that file. -/
def nineTransactions : List Itemset :=
  [(Itemset.empty.AddItem 0).AddItem 1,
   (Itemset.empty.AddItem 0).AddItem 1,
   [2, 3, 4, 5, 6, 7, 8].foldl Itemset.AddItem Itemset.empty]

end Inputs

/-! ## Lemmas on itemsets -/

namespace Itemset

theorem bitTest_eq (b s : Nat) : ((b &&& (1 <<< s)) != 0) = b.testBit s := by
  rw [Nat.one_shiftLeft, Nat.and_two_pow]
  cases b.testBit s <;> simp

theorem HasItem_eq (s : Itemset) (p : Nat) :
    s.HasItem p = s.m_Blocks[p / 8]?.map (fun b => b.testBit (p % 8)) := by
  simp only [HasItem, bitTest_eq]

theorem member_eq (s : Itemset) (p : Nat) :
    s.member p = (s.m_Blocks.getD (p / 8) 0).testBit (p % 8) := by
  simp only [member, HasItem_eq, List.getD_eq_getElem?_getD]
  cases s.m_Blocks[p / 8]? <;> simp

theorem HasItem_isSome (s : Itemset) (p : Nat) :
    (s.HasItem p).isSome = decide (p / 8 < s.m_Blocks.length) := by
  simp only [HasItem_eq, Option.isSome_map']
  by_cases h : p / 8 < s.m_Blocks.length
  · simp [h]
  · simp [h, List.getElem?_eq_none (Nat.le_of_not_lt h)]

theorem HasItem_eq_some_member (s : Itemset) (p : Nat) (h : p / 8 < s.m_Blocks.length) :
    s.HasItem p = some (s.member p) := by
  have h1 := HasItem_isSome s p
  simp only [h, decide_True] at h1
  obtain ⟨b, hb⟩ := Option.isSome_iff_exists.mp h1
  simp [member, hb]

theorem HasItem_eq_some_true (s : Itemset) (p : Nat) :
    s.HasItem p = some true ↔ s.member p = true := by
  unfold member
  cases s.HasItem p <;> simp

theorem getD_append_replicate_zero (l : List Nat) (n k : Nat) :
    (l ++ List.replicate n 0).getD k 0 = l.getD k 0 := by
  simp only [List.getD_eq_getElem?_getD]
  by_cases h : k < l.length
  · rw [List.getElem?_append_left h]
  · have h' : l.length ≤ k := Nat.le_of_not_lt h
    rw [List.getElem?_append_right h', List.getElem?_eq_none h']
    by_cases h2 : k - l.length < n
    · simp [List.getElem?_replicate, h2]
    · simp [List.getElem?_replicate, h2]

theorem getD_set (l : List Nat) (i k v : Nat) (h : i < l.length) :
    (l.set i v).getD k 0 = if k = i then v else l.getD k 0 := by
  simp only [List.getD_eq_getElem?_getD, List.getElem?_set]
  by_cases hk : i = k
  · subst hk; simp [h]
  · have hk' : ¬ k = i := fun e => hk e.symm
    simp [hk, hk']

/-- The storage of `AddItem` before the bit is set. -/
theorem AddItem_blocks (s : Itemset) (p : Nat) :
    ∃ B : List Nat, p / 8 < B.length ∧ s.m_Blocks.length ≤ B.length ∧
      (∀ k, B.getD k 0 = s.m_Blocks.getD k 0) ∧
      (s.AddItem p).m_Blocks = B.set (p / 8) ((B.getD (p / 8) 0 ||| (1 <<< (p % 8))) % 256) := by
  by_cases h : p / 8 ≥ s.m_Blocks.length
  · refine ⟨s.m_Blocks ++ List.replicate (p / 8 + 1) 0, ?_, ?_, ?_, ?_⟩
    · simp; omega
    · simp
    · intro k; exact getD_append_replicate_zero _ _ _
    · simp [AddItem, h]
  · refine ⟨s.m_Blocks, by omega, Nat.le_refl _, fun _ => rfl, ?_⟩
    simp [AddItem, h]

theorem AddItem_length_gt (s : Itemset) (p : Nat) : p / 8 < (s.AddItem p).m_Blocks.length := by
  obtain ⟨B, h1, _, _, h4⟩ := AddItem_blocks s p
  rw [h4, List.length_set]; exact h1

theorem AddItem_length_ge (s : Itemset) (p : Nat) :
    s.m_Blocks.length ≤ (s.AddItem p).m_Blocks.length := by
  obtain ⟨B, _, h2, _, h4⟩ := AddItem_blocks s p
  rw [h4, List.length_set]; exact h2

theorem member_AddItem (s : Itemset) (p q : Nat) :
    (s.AddItem p).member q = (s.member q || decide (q = p)) := by
  obtain ⟨B, h1, _, h3, h4⟩ := AddItem_blocks s p
  rw [member_eq, member_eq, h4, getD_set _ _ _ _ h1, ← h3]
  by_cases hk : q / 8 = p / 8
  · have h8 : q % 8 < 8 := Nat.mod_lt _ (by decide)
    have e : (256 : Nat) = 2 ^ 8 := by norm_num
    rw [if_pos hk, e, Nat.testBit_mod_two_pow, Nat.testBit_or, Nat.one_shiftLeft,
      Nat.testBit_two_pow, hk]
    have hd : decide (p % 8 = q % 8) = decide (q = p) := by
      apply decide_eq_decide.mpr
      constructor
      · intro hm; omega
      · intro hm; rw [hm]
    simp [h8, hd]
  · have hne : ¬ q = p := fun e => hk (by rw [e])
    simp [hk, hne]

theorem padBlocks_blocks (k : Nat) (s : Itemset) :
    (padBlocks k s).m_Blocks = s.m_Blocks ++ List.replicate k 0 := by
  induction k generalizing s with
  | zero => simp [padBlocks]
  | succ k ih =>
    rw [padBlocks, ih, AddBlock, List.replicate_succ]
    simp

theorem getD_set_gen (l : List Nat) (i k v : Nat) :
    (l.set i v).getD k 0 = if k = i ∧ i < l.length then v else l.getD k 0 := by
  by_cases h : i < l.length
  · rw [getD_set l i k v h]; simp [h]
  · have h' : l.length ≤ i := Nat.le_of_not_lt h
    have hs : l.set i v = l := by
      apply List.ext_getElem?
      intro j
      rw [List.getElem?_set]
      by_cases hj : i = j
      · subst hj; simp [h, List.getElem?_eq_none h']
      · simp [hj]
    rw [hs]; simp [h]

/-- The OR loop after `n` iterations. -/
theorem orLoop_spec (mine blocks : List Nat) (n : Nat) :
    ((List.range n).foldl
        (fun m i => m.set i ((m.getD i 0 ||| blocks.getD i 0) % 256)) mine).length
      = mine.length ∧
    ∀ k, ((List.range n).foldl
        (fun m i => m.set i ((m.getD i 0 ||| blocks.getD i 0) % 256)) mine).getD k 0
      = if k < n ∧ k < mine.length then (mine.getD k 0 ||| blocks.getD k 0) % 256
        else mine.getD k 0 := by
  induction n with
  | zero => simp
  | succ n ih =>
    obtain ⟨ihl, ihg⟩ := ih
    rw [List.range_succ, List.foldl_append]
    simp only [List.foldl_cons, List.foldl_nil]
    refine ⟨by rw [List.length_set]; exact ihl, ?_⟩
    intro k
    rw [getD_set_gen, ihl, ihg n, ihg k]
    by_cases hkn : k = n
    · subst hkn
      by_cases hl : k < mine.length
      · simp [hl]
      · simp [hl]
    · by_cases hlt : k < n
      · have : k < n + 1 := by omega
        simp [hkn, hlt, this]
      · have : ¬ k < n + 1 := by omega
        simp [hkn, hlt, this]

theorem orBlocks_length (mine blocks : List Nat) :
    (orBlocks mine blocks).length = mine.length :=
  (orLoop_spec mine blocks blocks.length).1

theorem orBlocks_getD (mine blocks : List Nat) (k : Nat) :
    (orBlocks mine blocks).getD k 0
      = if k < blocks.length ∧ k < mine.length then (mine.getD k 0 ||| blocks.getD k 0) % 256
        else mine.getD k 0 :=
  (orLoop_spec mine blocks blocks.length).2 k

theorem AddItemset_length (a b : Itemset) :
    (a.AddItemset b).m_Blocks.length = max a.m_Blocks.length b.m_Blocks.length := by
  simp only [AddItemset, GetBlocks, orBlocks_length, padBlocks_blocks, List.length_append,
    List.length_replicate]
  omega

theorem getD_eq_zero_of_le (l : List Nat) (k : Nat) (h : l.length ≤ k) : l.getD k 0 = 0 := by
  simp [List.getD_eq_getElem?_getD, List.getElem?_eq_none h]

theorem AddItemset_getD (a b : Itemset) (k : Nat) :
    (a.AddItemset b).m_Blocks.getD k 0
      = if k < b.m_Blocks.length then (a.m_Blocks.getD k 0 ||| b.m_Blocks.getD k 0) % 256
        else a.m_Blocks.getD k 0 := by
  simp only [AddItemset, GetBlocks, orBlocks_getD, padBlocks_blocks,
    getD_append_replicate_zero, List.length_append, List.length_replicate]
  by_cases h : k < b.m_Blocks.length
  · have : k < a.m_Blocks.length + (b.m_Blocks.length - a.m_Blocks.length) := by omega
    simp [h, this]
  · simp [h]

theorem member_AddItemset (a b : Itemset) (i : Nat) :
    (a.AddItemset b).member i = (a.member i || b.member i) := by
  rw [member_eq, member_eq, member_eq, AddItemset_getD]
  by_cases h : i / 8 < b.m_Blocks.length
  · have h8 : i % 8 < 8 := Nat.mod_lt _ (by decide)
    have e : (256 : Nat) = 2 ^ 8 := by norm_num
    rw [if_pos h, e, Nat.testBit_mod_two_pow, Nat.testBit_or]
    simp [h8]
  · rw [if_neg h, getD_eq_zero_of_le _ _ (Nat.le_of_not_lt h)]
    simp

theorem testBit_eq_false_of_lt_256 (b j : Nat) (hb : b < 256) (hj : 8 ≤ j) :
    b.testBit j = false := by
  apply Nat.testBit_lt_two_pow
  calc b < 2 ^ 8 := by simpa using hb
    _ ≤ 2 ^ j := Nat.pow_le_pow_right (by decide) hj

theorem getD_lt_256 (s : Itemset) (h : s.WellFormed) (i : Nat) : s.m_Blocks.getD i 0 < 256 := by
  by_cases hi : i < s.m_Blocks.length
  · rw [List.getD_eq_getElem _ _ hi]
    exact h _ (List.getElem_mem hi)
  · rw [getD_eq_zero_of_le _ _ (Nat.le_of_not_lt hi)]; decide

/-- One summand of the fold: block `n` shifted to its byte and cut to 64 bits. -/
theorem testBit_shifted_block (b n p : Nat) (hb : b < 256) :
    ((b <<< (n * 8)) % 2 ^ 64).testBit p
      = (decide (p < 64) && (decide (p / 8 = n) && b.testBit (p % 8))) := by
  rw [Nat.testBit_mod_two_pow, Nat.testBit_shiftLeft]
  by_cases h : p / 8 = n
  · have h1 : p ≥ n * 8 := by omega
    have h2 : p - n * 8 = p % 8 := by omega
    simp [h, h1, h2]
  · by_cases h1 : p ≥ n * 8
    · have h2 : 8 ≤ p - n * 8 := by omega
      simp [h, h1, testBit_eq_false_of_lt_256 b _ hb h2]
    · simp [h, h1]

/-- With byte blocks and no position from 64 on, the blocks from index 8 on are zero. -/
theorem blocks_zero_of_below (s : Itemset) (h : s.WellFormed) (hb : s.PositionsBelow 64)
    (i : Nat) (hi : 8 ≤ i) : s.m_Blocks.getD i 0 = 0 := by
  apply Nat.eq_of_testBit_eq
  intro j
  rw [Nat.zero_testBit]
  by_cases hj : j < 8
  · have hm := hb (8 * i + j) (by omega)
    rw [member_eq] at hm
    have e1 : (8 * i + j) / 8 = i := by omega
    have e2 : (8 * i + j) % 8 = j := by omega
    rw [e1, e2] at hm
    exact hm
  · exact testBit_eq_false_of_lt_256 _ _ (getD_lt_256 s h i) (Nat.le_of_not_lt hj)

/-- The fold of `GetEncodedVal` after `n` blocks, when the blocks from index 8 on are
zero. -/
theorem encLoop_testBit (s : Itemset) (h : s.WellFormed)
    (hz : ∀ i, 8 ≤ i → s.m_Blocks.getD i 0 = 0) (n p : Nat) :
    ((List.range n).foldl
        (fun encodedVal i =>
          encodedVal ||| ((s.m_Blocks.getD i 0) <<< ((i * 8) % 64)) % 2 ^ 64)
        0).testBit p
      = (decide (p < 64) && (decide (p / 8 < n) && (s.m_Blocks.getD (p / 8) 0).testBit (p % 8)))
    := by
  induction n with
  | zero => simp
  | succ n ih =>
    rw [List.range_succ, List.foldl_append]
    simp only [List.foldl_cons, List.foldl_nil]
    rw [Nat.testBit_or, ih]
    by_cases hn : n < 8
    · have hsh : (n * 8) % 64 = n * 8 := Nat.mod_eq_of_lt (by omega)
      rw [hsh, testBit_shifted_block _ _ _ (getD_lt_256 s h n)]
      by_cases h1 : p / 8 = n
      · subst h1; simp
      · by_cases h2 : p / 8 < n
        · have : p / 8 < n + 1 := by omega
          simp [h1, h2, this]
        · have : ¬ p / 8 < n + 1 := by omega
          simp [h1, h2, this]
    · rw [hz n (Nat.le_of_not_lt hn)]
      simp only [Nat.zero_shiftLeft, Nat.zero_mod, Nat.zero_testBit, Bool.or_false]
      by_cases hp : p < 64
      · have h2 : p / 8 < n := by omega
        have h3 : p / 8 < n + 1 := by omega
        simp [hp, h2, h3]
      · simp [hp]

theorem member_eq_false_of_le (s : Itemset) (p : Nat) (h : s.m_Blocks.length ≤ p / 8) :
    s.member p = false := by
  rw [member_eq, getD_eq_zero_of_le _ _ h]; simp

theorem GetEncodedVal_testBit_of_below (s : Itemset) (h : s.WellFormed)
    (hb : s.PositionsBelow 64) (p : Nat) : s.GetEncodedVal.testBit p = s.member p := by
  unfold GetEncodedVal
  rw [encLoop_testBit s h (blocks_zero_of_below s h hb)]
  by_cases hp : p < 64
  · by_cases hl : p / 8 < s.m_Blocks.length
    · simp [hp, hl, member_eq]
    · simp [hp, hl, member_eq_false_of_le s p (Nat.le_of_not_lt hl)]
  · simp [hp, hb p (Nat.le_of_not_lt hp)]

theorem positionsBelow_of_length_le (s : Itemset) (h : s.m_Blocks.length ≤ 8) :
    s.PositionsBelow 64 := by
  intro p hp
  apply member_eq_false_of_le
  omega

/-- The test of `Support` on the two folded values is the superset test. -/
theorem encoded_and_eq_iff (a t : Itemset) (ha : a.WellFormed) (hab : a.PositionsBelow 64)
    (ht : t.WellFormed) (htb : t.PositionsBelow 64) :
    ((a.GetEncodedVal &&& t.GetEncodedVal) == a.GetEncodedVal) = true
      ↔ ∀ p, a.member p = true → t.member p = true := by
  rw [beq_iff_eq]
  constructor
  · intro h p hp
    have hbit := congrArg (fun x => x.testBit p) h
    simp only [Nat.testBit_and, GetEncodedVal_testBit_of_below a ha hab,
      GetEncodedVal_testBit_of_below t ht htb, hp, Bool.true_and] at hbit
    exact hbit
  · intro h
    apply Nat.eq_of_testBit_eq
    intro p
    rw [Nat.testBit_and, GetEncodedVal_testBit_of_below a ha hab,
      GetEncodedVal_testBit_of_below t ht htb]
    by_cases hp : a.member p = true
    · simp [hp, h p hp]
    · simp [Bool.eq_false_iff.mpr hp]

/-- While no position from 64 on is set, `IsEqual` compares the memberships. -/
theorem IsEqual_iff_of_below (a b : Itemset) (ha : a.WellFormed) (hab : a.PositionsBelow 64)
    (hb : b.WellFormed) (hbb : b.PositionsBelow 64) :
    a.IsEqual b = true ↔ ∀ p, a.member p = b.member p := by
  unfold IsEqual
  rw [beq_iff_eq]
  constructor
  · intro h p
    have hbit := congrArg (fun x => x.testBit p) h
    simp only [GetEncodedVal_testBit_of_below a ha hab,
      GetEncodedVal_testBit_of_below b hb hbb] at hbit
    exact hbit.symm
  · intro h
    apply Nat.eq_of_testBit_eq
    intro p
    rw [GetEncodedVal_testBit_of_below a ha hab, GetEncodedVal_testBit_of_below b hb hbb, h p]

theorem isSubsetOf_iff (a t : Itemset) :
    a.isSubsetOf t = true ↔ ∀ p, a.member p = true → t.member p = true := by
  unfold isSubsetOf
  rw [List.all_eq_true]
  constructor
  · intro h p hp
    by_cases hl : p / 8 < a.m_Blocks.length
    · have := h p (List.mem_range.mpr (by omega))
      simpa [hp] using this
    · rw [member_eq_false_of_le a p (Nat.le_of_not_lt hl)] at hp
      exact Bool.noConfusion hp
  · intro h p _
    by_cases hp : a.member p = true
    · simp [hp, h p hp]
    · simp [Bool.eq_false_iff.mpr hp]

theorem member_foldl_AddItem (l : List Nat) (s : Itemset) (i : Nat) :
    (l.foldl AddItem s).member i = (s.member i || decide (i ∈ l)) := by
  induction l generalizing s with
  | nil => simp
  | cons a l ih =>
    rw [List.foldl_cons, ih, member_AddItem]
    by_cases h1 : i = a
    · simp [h1]
    · by_cases h2 : i ∈ l
      · simp [h1, h2]
      · simp [h1, h2]

theorem member_empty (i : Nat) : empty.member i = false := by
  simp [member, HasItem, empty]

theorem WellFormed_AddItem (s : Itemset) (p : Nat) (h : s.WellFormed) :
    (s.AddItem p).WellFormed := by
  obtain ⟨B, _, _, h3, h4⟩ := AddItem_blocks s p
  intro b hb
  rw [h4] at hb
  rcases List.mem_or_eq_of_mem_set hb with hb' | hb'
  · obtain ⟨k, hk, rfl⟩ := List.getElem_of_mem hb'
    have := h3 k
    rw [List.getD_eq_getElem _ _ hk] at this
    rw [this]
    exact getD_lt_256 s h k
  · rw [hb']; exact Nat.mod_lt _ (by decide)

theorem WellFormed_foldl_AddItem (l : List Nat) (s : Itemset) (h : s.WellFormed) :
    (l.foldl AddItem s).WellFormed := by
  induction l generalizing s with
  | nil => exact h
  | cons a l ih => exact ih _ (WellFormed_AddItem s a h)

theorem WellFormed_empty : empty.WellFormed := by
  intro b hb; exact absurd hb (List.not_mem_nil _)

end Itemset

/-! ## Lemmas on rules -/

namespace Rule

theorem foldl_AddItem_map (ITEMS : Items) (l : List String) (s : Itemset) :
    l.foldl (fun items item => items.AddItem (ITEMS.GetIndex item)) s
      = (l.map ITEMS.GetIndex).foldl Itemset.AddItem s := by
  rw [List.foldl_map]

theorem GetAntecedent_eq (ITEMS : Items) (r : Rule) :
    r.GetAntecedent ITEMS
      = (r.antecedent.map ITEMS.GetIndex).foldl Itemset.AddItem Itemset.empty := by
  unfold GetAntecedent; rw [foldl_AddItem_map]

theorem GetConsequent_eq (ITEMS : Items) (r : Rule) :
    r.GetConsequent ITEMS
      = (r.consequent.map ITEMS.GetIndex).foldl Itemset.AddItem Itemset.empty := by
  unfold GetConsequent; rw [foldl_AddItem_map]

theorem ToItemset_eq (ITEMS : Items) (r : Rule) :
    r.ToItemset ITEMS
      = ((r.antecedent ++ r.consequent).map ITEMS.GetIndex).foldl Itemset.AddItem
          Itemset.empty := by
  unfold ToItemset
  rw [foldl_AddItem_map, foldl_AddItem_map, List.map_append, List.foldl_append]

theorem member_GetAntecedent (ITEMS : Items) (r : Rule) (p : Nat) :
    (r.GetAntecedent ITEMS).member p = decide (p ∈ r.antecedent.map ITEMS.GetIndex) := by
  rw [GetAntecedent_eq, Itemset.member_foldl_AddItem, Itemset.member_empty, Bool.false_or]

theorem member_GetConsequent (ITEMS : Items) (r : Rule) (p : Nat) :
    (r.GetConsequent ITEMS).member p = decide (p ∈ r.consequent.map ITEMS.GetIndex) := by
  rw [GetConsequent_eq, Itemset.member_foldl_AddItem, Itemset.member_empty, Bool.false_or]

theorem member_ToItemset (ITEMS : Items) (r : Rule) (p : Nat) :
    (r.ToItemset ITEMS).member p
      = decide (p ∈ (r.antecedent ++ r.consequent).map ITEMS.GetIndex) := by
  rw [ToItemset_eq, Itemset.member_foldl_AddItem, Itemset.member_empty, Bool.false_or]

theorem member_ToItemset_union (ITEMS : Items) (r : Rule) (p : Nat) :
    (r.ToItemset ITEMS).member p
      = ((r.GetAntecedent ITEMS).member p || (r.GetConsequent ITEMS).member p) := by
  rw [member_ToItemset, member_GetAntecedent, member_GetConsequent, List.map_append]
  simp [List.mem_append]

theorem WellFormed_ToItemset (ITEMS : Items) (r : Rule) : (r.ToItemset ITEMS).WellFormed := by
  rw [ToItemset_eq]
  exact Itemset.WellFormed_foldl_AddItem _ _ Itemset.WellFormed_empty

theorem WellFormed_GetAntecedent (ITEMS : Items) (r : Rule) :
    (r.GetAntecedent ITEMS).WellFormed := by
  rw [GetAntecedent_eq]
  exact Itemset.WellFormed_foldl_AddItem _ _ Itemset.WellFormed_empty

theorem PositionsBelow_ToItemset (ITEMS : Items) (r : Rule)
    (h : ∀ item ∈ r.antecedent ++ r.consequent, ITEMS.GetIndex item < 64) :
    (r.ToItemset ITEMS).PositionsBelow 64 := by
  intro p hp
  rw [member_ToItemset]
  apply decide_eq_false
  intro hmem
  obtain ⟨item, hitem, rfl⟩ := List.mem_map.mp hmem
  exact absurd (h item hitem) (Nat.not_lt.mpr hp)

theorem PositionsBelow_GetAntecedent (ITEMS : Items) (r : Rule)
    (h : ∀ item ∈ r.antecedent ++ r.consequent, ITEMS.GetIndex item < 64) :
    (r.GetAntecedent ITEMS).PositionsBelow 64 := by
  intro p hp
  rw [member_GetAntecedent]
  apply decide_eq_false
  intro hmem
  obtain ⟨item, hitem, rfl⟩ := List.mem_map.mp hmem
  exact absurd (h item (List.mem_append_left _ hitem)) (Nat.not_lt.mpr hp)

end Rule

/-! ## Lemmas on support -/

namespace Apriori

theorem foldl_count (T : List Itemset) (c : Itemset → Bool) (k : Nat) :
    T.foldl (fun frequency t => if c t then frequency + 1 else frequency) k
      = k + T.countP c := by
  induction T generalizing k with
  | nil => simp
  | cons t T ih =>
    rw [List.foldl_cons, ih, List.countP_cons]
    by_cases h : c t = true
    · simp [h]; omega
    · simp [h]

theorem Support_eq_div (self : BitsApriori.Apriori) (T : List Itemset) (s : Itemset) :
    self.Support T s
      = FloatVal.div (FloatVal.ofNat (frequency T s)) (FloatVal.ofNat T.length) := by
  simp only [Support, frequency, foldl_count, Nat.zero_add]

theorem Support_of_ne_nil (self : BitsApriori.Apriori) (T : List Itemset) (s : Itemset) (hT : T ≠ []) :
    self.Support T s = FloatVal.fin ((frequency T s : ℚ) / (T.length : ℚ)) := by
  have hlen : (T.length : ℚ) ≠ 0 := by
    have : T.length ≠ 0 := fun h => hT (List.length_eq_zero.mp h)
    exact_mod_cast this
  rw [Support_eq_div]
  simp [FloatVal.div, FloatVal.ofNat, hlen]

theorem frequency_eq_countP_subset (T : List Itemset) (s : Itemset) (hs : s.WellFormed)
    (hs64 : s.PositionsBelow 64) (hT : ∀ t ∈ T, t.WellFormed ∧ t.PositionsBelow 64) :
    frequency T s = T.countP (fun t => s.isSubsetOf t) := by
  unfold frequency
  apply List.countP_congr
  intro t ht
  rw [Itemset.encoded_and_eq_iff s t hs hs64 (hT t ht).1 (hT t ht).2, Itemset.isSubsetOf_iff]

theorem foldl_invariant {α β : Type} (P : β → Prop) (f : β → α → β) (l : List α) (b : β)
    (hb : P b) (hf : ∀ b a, P b → P (f b a)) : P (l.foldl f b) := by
  induction l generalizing b with
  | nil => exact hb
  | cons a l ih => exact ih (f b a) (hf b a hb)

theorem foldl_push_filter {α : Type} (c : α → Bool) (l init : List α) :
    l.foldl (fun acc x => if c x = true then acc ++ [x] else acc) init = init ++ l.filter c := by
  induction l generalizing init with
  | nil => simp
  | cons a l ih =>
    rw [List.foldl_cons, ih]
    by_cases h : c a = true
    · simp [h]
    · simp [h]

theorem FrequentItemsets_eq_filter (self : BitsApriori.Apriori) (T candidateSets : List Itemset) :
    self.FrequentItemsets T candidateSets
      = candidateSets.filter
          (fun set => FloatVal.ge (self.Support T set) self.m_MinSupport) := by
  unfold FrequentItemsets
  rw [foldl_push_filter]; simp

theorem FrequentItemsets_congr (self self' : BitsApriori.Apriori) (T c : List Itemset)
    (h : self.m_MinSupport = self'.m_MinSupport) :
    self.FrequentItemsets T c = self'.FrequentItemsets T c := by
  simp only [FrequentItemsets, Support, h]

theorem mineLoop_congr (self self' : BitsApriori.Apriori) (T : List Itemset)
    (h : self.m_MinSupport = self'.m_MinSupport) (n i : Nat) (l0 fi : List Itemset) :
    self.mineLoop T n i l0 fi = self'.mineLoop T n i l0 fi := by
  induction n generalizing i l0 fi with
  | zero => rfl
  | succ n ih =>
    simp only [mineLoop]
    have hc : self.CandidateItemsets l0 = self'.CandidateItemsets l0 := rfl
    rw [hc, FrequentItemsets_congr self self' T _ h, ih]

/-- The mining part of the constructor reads only `minSupport`. -/
theorem mining_indep (ITEMS : Items) (T : List Itemset) (s c l c' l' : FloatVal) :
    (Apriori ITEMS T s c l).i = (Apriori ITEMS T s c' l').i
      ∧ (Apriori ITEMS T s c l).warning = (Apriori ITEMS T s c' l').warning
      ∧ (Apriori ITEMS T s c l).level0 = (Apriori ITEMS T s c' l').level0
      ∧ (Apriori ITEMS T s c l).frequentItemsets = (Apriori ITEMS T s c' l').frequentItemsets := by
  have h0 := FrequentItemsets_congr ⟨s, c, l⟩ ⟨s, c', l'⟩ T (initialCandidates ITEMS) rfl
  have h1 := mineLoop_congr ⟨s, c, l⟩ ⟨s, c', l'⟩ T rfl (_MAX_ITR - 0) 0
    (FrequentItemsets ⟨s, c', l'⟩ T (initialCandidates ITEMS)) []
  simp only [Apriori, h0, h1, and_self]

theorem GenerateRules_congr (self self' : BitsApriori.Apriori) (ITEMS : Items)
    (T : List Itemset) (itemset : List String)
    (h : self.m_MinConfidence = self'.m_MinConfidence) :
    self.GenerateRules ITEMS T itemset = self'.GenerateRules ITEMS T itemset := by
  simp only [GenerateRules, Subsets, CalculateSubsets, Confidence, Support, h]

/-- The constructor does not read `minLift`. -/
theorem Apriori_minLift_indep (ITEMS : Items) (T : List Itemset) (s c l l' : FloatVal) :
    Apriori ITEMS T s c l = Apriori ITEMS T s c l' := by
  have h0 := FrequentItemsets_congr ⟨s, c, l⟩ ⟨s, c, l'⟩ T (initialCandidates ITEMS) rfl
  have h1 := mineLoop_congr ⟨s, c, l⟩ ⟨s, c, l'⟩ T rfl (_MAX_ITR - 0) 0
    (FrequentItemsets ⟨s, c, l'⟩ T (initialCandidates ITEMS)) []
  have h2 : ∀ labels, GenerateRules ⟨s, c, l⟩ ITEMS T labels
      = GenerateRules ⟨s, c, l'⟩ ITEMS T labels :=
    fun labels => GenerateRules_congr ⟨s, c, l⟩ ⟨s, c, l'⟩ ITEMS T labels rfl
  simp only [Apriori, h0, h1, h2]

/-- Every entry of `GenerateRules` carries the outcome of the strict test on its rule. -/
theorem GenerateRules_flag (self : BitsApriori.Apriori) (ITEMS : Items) (T : List Itemset)
    (itemset : List String) :
    ∀ e ∈ self.GenerateRules ITEMS T itemset,
      e.2 = FloatVal.gt (self.Confidence ITEMS T e.1) self.m_MinConfidence := by
  unfold GenerateRules
  apply foldl_invariant
    (fun out : List (Rule × Bool) => ∀ e ∈ out,
      e.2 = FloatVal.gt (self.Confidence ITEMS T e.1) self.m_MinConfidence)
  · intro e he; exact absurd he (List.not_mem_nil _)
  · intro out subset hout
    split
    · exact hout
    · apply foldl_invariant
        (fun out : List (Rule × Bool) => ∀ e ∈ out,
          e.2 = FloatVal.gt (self.Confidence ITEMS T e.1) self.m_MinConfidence)
      · exact hout
      · intro out' ptr hout' e he
        rcases List.mem_append.mp he with h | h
        · exact hout' e h
        · rw [List.mem_singleton.mp h]

theorem filter_flag_map (l : List (Rule × Bool)) (g : Rule → Bool)
    (h : ∀ e ∈ l, e.2 = g e.1) :
    (l.filter (fun e => e.2)).map (fun e => e.1) = (l.map (fun e => e.1)).filter g := by
  induction l with
  | nil => rfl
  | cons a l ih =>
    have ha : a.2 = g a.1 := h a (List.mem_cons_self _ _)
    have ih' := ih (fun e he => h e (List.mem_cons_of_mem _ he))
    rw [List.map_cons]
    by_cases hg : g a.1 = true
    · rw [List.filter_cons_of_pos (by rw [ha]; exact hg), List.filter_cons_of_pos hg,
        List.map_cons, ih']
    · rw [List.filter_cons_of_neg (by rw [ha]; exact hg), List.filter_cons_of_neg hg, ih']

end Apriori

theorem FloatVal.lt_irrefl (a : FloatVal) : FloatVal.lt a a = false := by
  cases a <;> simp [FloatVal.lt]

/-! ## Lemmas on the item dictionary -/

namespace Items

theorem GetAll_eq_map (self : Items) : self.GetAll = self.m_Items.map Prod.fst := by
  unfold GetAll
  have h : ∀ (l : List (String × Nat)) (acc : List String),
      l.foldl (fun items pair => items ++ [pair.1]) acc = acc ++ l.map Prod.fst := by
    intro l
    induction l with
    | nil => intro acc; simp
    | cons a l ih => intro acc; rw [List.foldl_cons, ih]; simp
  rw [h]; simp

theorem lookup_of_mem (l : List (String × Nat)) (a : String) (v : Nat)
    (hn : (l.map Prod.fst).Nodup) (hm : (a, v) ∈ l) : l.lookup a = some v := by
  induction l with
  | nil => exact absurd hm (List.not_mem_nil _)
  | cons e l ih =>
    obtain ⟨k, b⟩ := e
    rw [List.map_cons, List.nodup_cons] at hn
    rw [List.lookup_cons]
    rcases List.mem_cons.mp hm with h | h
    · have hk : a = k := (Prod.mk.inj h).1
      have hb : v = b := (Prod.mk.inj h).2
      subst hk; subst hb; simp
    · have hne : ¬ a = k := by
        intro e
        subst e
        exact hn.1 (List.mem_map.mpr ⟨(a, v), h, rfl⟩)
      have : (a == k) = false := by simpa using hne
      rw [this]
      exact ih hn.2 h

theorem Holds.keys {self : Items} {seen : List String} (h : self.Holds seen) :
    (self.m_Items.map Prod.fst).Perm seen := by
  have := h.2.2.map Prod.fst
  rwa [List.map_fst_zip _ _ (by simp)] at this

theorem Holds.step {self : Items} {seen : List String} (h : self.Holds seen) (item : String)
    (order : List (String × Nat)) :
    (self.AddItem item order).Holds (if item ∈ seen then seen else seen ++ [item]) := by
  have hk := h.keys
  by_cases hin : item ∈ seen
  · have hc : ¬ (self.m_Items.map Prod.fst).count item = 0 := by
      rw [List.count_eq_zero]
      exact fun hno => hno (hk.mem_iff.mpr hin)
    simp only [AddItem, hc, if_false, hin, if_true]
    exact h
  · have hc : (self.m_Items.map Prod.fst).count item = 0 := by
      rw [List.count_eq_zero]
      exact fun hyes => hin (hk.mem_iff.mp hyes)
    simp only [AddItem, hc, if_true, hin, if_false]
    obtain ⟨hnd, hidx, hperm⟩ := h
    refine ⟨?_, ?_, ?_⟩
    · rw [List.nodup_append]
      refine ⟨hnd, List.nodup_singleton _, ?_⟩
      intro x hx hx'
      rw [List.mem_singleton] at hx'
      subst hx'
      exact hin hx
    · simp [hidx]
    · have hz : (seen ++ [item]).zip (List.range (seen ++ [item]).length)
          = seen.zip (List.range seen.length) ++ [(item, seen.length)] := by
        rw [List.length_append, List.length_singleton, List.range_succ,
          List.zip_append (by simp)]
        rfl
      rw [hz]
      have hent : ((item, self.m_InsertIndex) :: self.m_Items).Perm
          (seen.zip (List.range seen.length) ++ [(item, seen.length)]) := by
        rw [hidx]
        exact (List.Perm.cons _ hperm).trans (List.perm_append_singleton _ _).symm
      by_cases ho : order.Perm ((item, self.m_InsertIndex) :: self.m_Items)
      · rw [if_pos ho]; exact ho.trans hent
      · rw [if_neg ho]; exact hent

theorem Holds.addAll (calls : List (String × List (String × Nat))) :
    ∀ (self : Items) (seen : List String), self.Holds seen →
      (self.addAll calls).Holds
        ((calls.map Prod.fst).foldl (fun seen x => if x ∈ seen then seen else seen ++ [x]) seen)
    := by
  induction calls with
  | nil => intro self seen h; exact h
  | cons c calls ih =>
    intro self seen h
    simp only [Items.addAll, List.foldl_cons, List.map_cons]
    exact ih _ _ (h.step c.1 c.2)

theorem Holds.empty : Items.empty.Holds [] := by
  refine ⟨List.nodup_nil, rfl, ?_⟩
  simp [Items.empty]

theorem Holds.GetIndex {self : Items} {seen : List String} (h : self.Holds seen) (k : Nat)
    (x : String) (hx : seen[k]? = some x) : self.GetIndex x = k := by
  have hk : k < seen.length := by
    by_contra hc
    rw [List.getElem?_eq_none (Nat.le_of_not_lt hc)] at hx
    exact Option.noConfusion hx
  have hmem : (x, k) ∈ seen.zip (List.range seen.length) := by
    rw [List.mem_iff_getElem?]
    refine ⟨k, ?_⟩
    rw [List.getElem?_zip_eq_some]
    exact ⟨hx, by simp [hk]⟩
  have hmem' : (x, k) ∈ self.m_Items := h.2.2.mem_iff.mpr hmem
  have hnd : (self.m_Items.map Prod.fst).Nodup := h.keys.nodup_iff.mpr h.1
  simp [Items.GetIndex, lookup_of_mem _ _ _ hnd hmem']

theorem mem_foldl_firstSeen (labels : List String) :
    ∀ (seen : List String) (x : String),
      x ∈ labels.foldl (fun seen x => if x ∈ seen then seen else seen ++ [x]) seen
        ↔ x ∈ seen ∨ x ∈ labels := by
  induction labels with
  | nil => intro seen x; simp
  | cons a labels ih =>
    intro seen x
    rw [List.foldl_cons, ih]
    by_cases ha : a ∈ seen
    · simp only [ha, if_true, List.mem_cons]
      constructor
      · rintro (h | h)
        · exact Or.inl h
        · exact Or.inr (Or.inr h)
      · rintro (h | h | h)
        · exact Or.inl h
        · exact Or.inl (h ▸ ha)
        · exact Or.inr h
    · simp only [ha, if_false, List.mem_append, List.mem_cons, List.not_mem_nil, or_false]
      constructor
      · rintro ((h | h) | h)
        · exact Or.inl h
        · exact Or.inr (Or.inl h)
        · exact Or.inr (Or.inr h)
      · rintro (h | h | h)
        · exact Or.inl (Or.inl h)
        · exact Or.inl (Or.inr h)
        · exact Or.inr h

end Items

theorem Items.GetIndex_of_mem (self : Items) (hn : (self.m_Items.map Prod.fst).Nodup)
    (e : String × Nat) (he : e ∈ self.m_Items) : self.GetIndex e.1 = e.2 := by
  simp [Items.GetIndex, Items.lookup_of_mem _ e.1 e.2 hn he]

theorem Items.map_GetIndex_GetAll (self : Items) (hn : (self.m_Items.map Prod.fst).Nodup) :
    self.GetAll.map self.GetIndex = self.m_Items.map Prod.snd := by
  rw [Items.GetAll_eq_map, List.map_map]
  apply List.map_congr_left
  intro e he
  exact Items.GetIndex_of_mem self hn e he

/-! ## Lemmas on candidate generation -/

namespace Apriori

theorem foldl_push_unless {α β : Type} (c : α → Bool) (g : α → β) (l : List α) :
    ∀ init : List β,
      l.foldl (fun acc x => if c x = true then acc else acc ++ [g x]) init
        = init ++ (l.filter (fun x => !c x)).map g := by
  induction l with
  | nil => intro init; simp
  | cons a l ih =>
    intro init
    rw [List.foldl_cons, ih]
    by_cases h : c a = true
    · simp [h]
    · simp [h]

theorem foldl_append_flatMap {α β : Type} (h : α → List β) (l : List α) :
    ∀ init : List β, l.foldl (fun acc x => acc ++ h x) init = init ++ l.flatMap h := by
  induction l with
  | nil => intro init; simp
  | cons a l ih => intro init; rw [List.foldl_cons, ih]; simp

/-- The two loops of `CandidateItemsets` as one enumeration. -/
theorem CandidateItemsets_eq_flatMap (self : BitsApriori.Apriori) (F : List Itemset) :
    self.CandidateItemsets F
      = (List.range F.length).flatMap
          (fun i =>
            ((List.range' i (F.length - i)).filter
              (fun j => (F.getD i Itemset.empty).GetEncodedVal
                != (F.getD j Itemset.empty).GetEncodedVal)).map
              (fun j => joined (F.getD i Itemset.empty) (F.getD j Itemset.empty))) := by
  unfold CandidateItemsets
  simp only [foldl_push_unless, foldl_append_flatMap, List.nil_append]
  rfl

theorem range_filter_lt (n i : Nat) (d : Nat → Bool) (hi : i < n) (hd : d i = false) :
    (List.range n).filter (fun j => decide (i < j) && d j)
      = (List.range' i (n - i)).filter d := by
  have hsplit : List.range n = List.range' 0 i ++ List.range' i (n - i) := by
    rw [List.range_eq_range']
    have := List.range'_append 0 i (n - i) 1
    simp only [Nat.one_mul, Nat.zero_add] at this
    rw [this]
    congr 1
    omega
  rw [hsplit, List.filter_append]
  have h1 : (List.range' 0 i).filter (fun j => decide (i < j) && d j) = [] := by
    rw [List.filter_eq_nil_iff]
    intro j hj
    have := (List.mem_range'_1.mp hj).2
    have hlt : ¬ i < j := by omega
    simp [hlt]
  have h2 : (List.range' i (n - i)).filter (fun j => decide (i < j) && d j)
      = (List.range' i (n - i)).filter d := by
    apply List.filter_congr
    intro j hj
    have hge := (List.mem_range'_1.mp hj).1
    by_cases hji : j = i
    · subst hji; simp [hd]
    · have : i < j := by omega
      simp [this]
  rw [h1, h2, List.nil_append]

theorem CandidateItemsets_eq_pairs (self : BitsApriori.Apriori) (F : List Itemset) :
    self.CandidateItemsets F
      = (candidatePairs F).map
          (fun ij => joined (F.getD ij.1 Itemset.empty) (F.getD ij.2 Itemset.empty)) := by
  rw [CandidateItemsets_eq_flatMap]
  unfold candidatePairs
  rw [List.map_flatMap]
  apply List.flatMap_congr
  intro i hi
  rw [range_filter_lt F.length i
    (fun j => (F.getD i Itemset.empty).GetEncodedVal != (F.getD j Itemset.empty).GetEncodedVal)
    (List.mem_range.mp hi) (by simp), List.map_map]
  rfl

theorem mem_candidatePairs (F : List Itemset) (i j : Nat) :
    (i, j) ∈ candidatePairs F
      ↔ i < j ∧ j < F.length
        ∧ (F.getD i Itemset.empty).GetEncodedVal ≠ (F.getD j Itemset.empty).GetEncodedVal := by
  unfold candidatePairs
  simp only [List.mem_flatMap, List.mem_map, List.mem_filter, List.mem_range, Prod.mk.injEq,
    Bool.and_eq_true, decide_eq_true_eq, bne_iff_ne, ne_eq]
  constructor
  · rintro ⟨a, -, b, ⟨hb, hab, hne⟩, rfl, rfl⟩
    exact ⟨hab, hb, hne⟩
  · rintro ⟨hij, hj, hne⟩
    exact ⟨i, by omega, j, ⟨hj, hij, hne⟩, rfl, rfl⟩

theorem nodup_candidatePairs (F : List Itemset) : (candidatePairs F).Nodup := by
  unfold candidatePairs
  rw [List.nodup_flatMap]
  refine ⟨?_, ?_⟩
  · intro i _
    apply List.Nodup.map
    · intro a b h; exact (Prod.mk.inj h).2
    · exact (List.nodup_range _).filter _
  · apply List.Pairwise.imp _ (List.nodup_range F.length)
    intro a b hab
    intro x hx1 hx2
    obtain ⟨j1, -, rfl⟩ := List.mem_map.mp hx1
    obtain ⟨j2, -, h2⟩ := List.mem_map.mp hx2
    exact hab (Prod.mk.inj h2).1.symm

theorem member_joined (a b : Itemset) (p : Nat) :
    (joined a b).member p = (a.member p || b.member p) := by
  unfold joined
  rw [Itemset.member_AddItemset, Itemset.member_AddItemset, Itemset.member_empty,
    Bool.false_or]

theorem map_getD_range (l : List Itemset) :
    (List.range l.length).map (fun j => l.getD j Itemset.empty) = l := by
  apply List.ext_getElem?
  intro k
  by_cases h : k < l.length
  · simp [h, List.getD_eq_getElem?_getD]
  · have h' : l.length ≤ k := Nat.le_of_not_lt h
    rw [List.getElem?_eq_none h', List.getElem?_eq_none (by simpa using h')]

/-- The candidates of a level with a first element: its joins with the later elements of
another folded value, then the candidates of the rest. -/
theorem CandidateItemsets_cons (self : BitsApriori.Apriori) (x : Itemset) (rest : List Itemset) :
    self.CandidateItemsets (x :: rest)
      = (rest.filter (fun y => x.GetEncodedVal != y.GetEncodedVal)).map (joined x)
        ++ self.CandidateItemsets rest := by
  rw [CandidateItemsets_eq_flatMap, CandidateItemsets_eq_flatMap, List.length_cons,
    List.range_succ_eq_map, List.flatMap_cons, List.flatMap_map]
  congr 1
  · simp only [List.getD_cons_zero, Nat.sub_zero]
    have h0 : List.range' 0 (rest.length + 1)
        = (List.range (x :: rest).length).map (fun j => j) := by
      rw [List.map_id', List.range_eq_range', List.length_cons]
    have hmap : ((List.range (x :: rest).length).filter
          (fun j => x.GetEncodedVal != ((x :: rest).getD j Itemset.empty).GetEncodedVal)).map
          (fun j => joined x ((x :: rest).getD j Itemset.empty))
        = (((List.range (x :: rest).length).map
            (fun j => (x :: rest).getD j Itemset.empty)).filter
            (fun y => x.GetEncodedVal != y.GetEncodedVal)).map (joined x) := by
      rw [List.filter_map, List.map_map]
      rfl
    rw [h0, List.map_id', hmap, map_getD_range, List.filter_cons]
    simp
  · apply List.flatMap_congr
    intro i hi
    have hlen : rest.length + 1 - Nat.succ i = rest.length - i := by omega
    rw [hlen, List.range'_eq_map_range (Nat.succ i), List.range'_eq_map_range i,
      List.filter_map, List.filter_map, List.map_map, List.map_map]
    have hget : ∀ t : Nat, (x :: rest).getD (Nat.succ i + t) Itemset.empty
        = rest.getD (i + t) Itemset.empty := by
      intro t
      have : Nat.succ i + t = (i + t) + 1 := by omega
      rw [this, List.getD_cons_succ]
    have hgi : (x :: rest).getD (Nat.succ i) Itemset.empty = rest.getD i Itemset.empty :=
      List.getD_cons_succ
    congr 1
    · funext t
      simp only [Function.comp, hget, hgi]
    · congr 1
      funext t
      simp only [Function.comp, hget, hgi]

theorem orByte (x y : Nat) : ((x % 256) ||| y) % 256 = (x ||| y) % 256 := by
  apply Nat.eq_of_testBit_eq
  intro i
  have e : (256 : Nat) = 2 ^ 8 := by norm_num
  rw [e]
  simp only [Nat.testBit_mod_two_pow, Nat.testBit_or]
  by_cases h : i < 8
  · simp [h]
  · simp [h]

theorem joined_length (a b : Itemset) :
    (joined a b).m_Blocks.length = max a.m_Blocks.length b.m_Blocks.length := by
  unfold joined
  rw [Itemset.AddItemset_length, Itemset.AddItemset_length]
  simp [Itemset.empty]

theorem joined_getD (a b : Itemset) (k : Nat) :
    (joined a b).m_Blocks.getD k 0 = (a.m_Blocks.getD k 0 ||| b.m_Blocks.getD k 0) % 256 := by
  unfold joined
  rw [Itemset.AddItemset_getD, Itemset.AddItemset_getD]
  have he : Itemset.empty.m_Blocks.getD k 0 = 0 := by simp [Itemset.empty]
  rw [he]
  by_cases ha : k < a.m_Blocks.length
  · by_cases hb : k < b.m_Blocks.length
    · simp only [ha, hb, if_true, Nat.zero_or, orByte]
    · simp only [ha, hb, if_true, if_false, Nat.zero_or,
        Itemset.getD_eq_zero_of_le _ _ (Nat.le_of_not_lt hb), Nat.or_zero]
  · by_cases hb : k < b.m_Blocks.length
    · simp only [ha, hb, if_true, if_false, Nat.zero_or,
        Itemset.getD_eq_zero_of_le _ _ (Nat.le_of_not_lt ha)]
    · simp only [ha, hb, if_false,
        Itemset.getD_eq_zero_of_le _ _ (Nat.le_of_not_lt ha),
        Itemset.getD_eq_zero_of_le _ _ (Nat.le_of_not_lt hb)]
      rfl

theorem ext_getD (l₁ l₂ : List Nat) (hl : l₁.length = l₂.length)
    (h : ∀ k, l₁.getD k 0 = l₂.getD k 0) : l₁ = l₂ := by
  apply List.ext_getElem?
  intro k
  by_cases hk : k < l₁.length
  · have hk2 : k < l₂.length := hl ▸ hk
    have := h k
    rw [List.getD_eq_getElem _ _ hk, List.getD_eq_getElem _ _ hk2] at this
    rw [List.getElem?_eq_getElem hk, List.getElem?_eq_getElem hk2, this]
  · have hk1 : l₁.length ≤ k := Nat.le_of_not_lt hk
    rw [List.getElem?_eq_none hk1, List.getElem?_eq_none (hl ▸ hk1)]

theorem joined_comm (a b : Itemset) : joined a b = joined b a := by
  have hb : (joined a b).m_Blocks = (joined b a).m_Blocks := by
    apply ext_getD
    · rw [joined_length, joined_length, Nat.max_comm]
    · intro k
      rw [joined_getD, joined_getD, Nat.lor_comm]
  cases h1 : joined a b
  cases h2 : joined b a
  rw [h1, h2] at hb
  simpa using hb

theorem CandidateItemsets_perm (self : BitsApriori.Apriori) {F F' : List Itemset}
    (h : F.Perm F') : (self.CandidateItemsets F).Perm (self.CandidateItemsets F') := by
  induction h with
  | nil => exact List.Perm.refl _
  | cons x hl ih =>
    rw [CandidateItemsets_cons, CandidateItemsets_cons]
    exact List.Perm.append (List.Perm.map _ (List.Perm.filter _ hl)) ih
  | swap x y l =>
    rw [CandidateItemsets_cons, CandidateItemsets_cons, CandidateItemsets_cons,
      CandidateItemsets_cons, List.filter_cons, List.filter_cons]
    by_cases hk : x.GetEncodedVal = y.GetEncodedVal
    · have h1 : (y.GetEncodedVal != x.GetEncodedVal) = false := by simp [hk]
      have h2 : (x.GetEncodedVal != y.GetEncodedVal) = false := by simp [hk]
      simp only [h1, h2, Bool.false_eq_true, if_false]
      rw [← List.append_assoc, ← List.append_assoc]
      exact List.Perm.append_right _ List.perm_append_comm
    · have h1 : (y.GetEncodedVal != x.GetEncodedVal) = true := by
        simpa using fun e => hk e.symm
      have h2 : (x.GetEncodedVal != y.GetEncodedVal) = true := by simpa using hk
      simp only [h1, h2, if_true, List.map_cons, List.cons_append]
      rw [joined_comm y x]
      apply List.Perm.cons
      rw [← List.append_assoc, ← List.append_assoc]
      exact List.Perm.append_right _ List.perm_append_comm
  | trans _ _ ih1 ih2 => exact ih1.trans ih2

theorem FrequentItemsets_perm (self : BitsApriori.Apriori) (T : List Itemset)
    {c c' : List Itemset} (h : c.Perm c') :
    (self.FrequentItemsets T c).Perm (self.FrequentItemsets T c') := by
  rw [FrequentItemsets_eq_filter, FrequentItemsets_eq_filter]
  exact List.Perm.filter _ h

theorem mineLoop_perm (self : BitsApriori.Apriori) (T : List Itemset) (n : Nat) :
    ∀ (i : Nat) (l0 l0' fi fi' : List Itemset), l0.Perm l0' → fi.Perm fi' →
      (self.mineLoop T n i l0 fi).1 = (self.mineLoop T n i l0' fi').1
        ∧ (self.mineLoop T n i l0 fi).2.1.Perm (self.mineLoop T n i l0' fi').2.1
        ∧ (self.mineLoop T n i l0 fi).2.2.Perm (self.mineLoop T n i l0' fi').2.2 := by
  induction n with
  | zero => intro i l0 l0' fi fi' h0 hf; exact ⟨rfl, h0, hf⟩
  | succ n ih =>
    intro i l0 l0' fi fi' h0 hf
    have hl := FrequentItemsets_perm self T (CandidateItemsets_perm self h0)
    have hlen := hl.length_eq
    simp only [mineLoop]
    by_cases hz : (self.FrequentItemsets T (self.CandidateItemsets l0)).length = 0
    · have hz' : (self.FrequentItemsets T (self.CandidateItemsets l0')).length = 0 := by
        rw [← hlen]; exact hz
      simp only [hz, hz', beq_self_eq_true, if_true]
      exact ⟨trivial, hl, hf⟩
    · have hz' : ¬ (self.FrequentItemsets T (self.CandidateItemsets l0')).length = 0 := by
        rw [← hlen]; exact hz
      have e1 : ((self.FrequentItemsets T (self.CandidateItemsets l0)).length == 0) = false := by
        simpa using hz
      have e2 : ((self.FrequentItemsets T (self.CandidateItemsets l0')).length == 0) = false := by
        simpa using hz'
      simp only [e1, e2, Bool.false_eq_true, if_false]
      exact ih _ _ _ _ _ hl hl

theorem initialCandidates_eq_map (ITEMS : Items) :
    initialCandidates ITEMS
      = ITEMS.GetAll.map (fun item => Itemset.empty.AddItem (ITEMS.GetIndex item)) := by
  unfold initialCandidates
  have h : ∀ (l : List String) (acc : List Itemset),
      l.foldl (fun c0 item => c0 ++ [Itemset.empty.AddItem (ITEMS.GetIndex item)]) acc
        = acc ++ l.map (fun item => Itemset.empty.AddItem (ITEMS.GetIndex item)) := by
    intro l
    induction l with
    | nil => intro acc; simp
    | cons a l ih => intro acc; rw [List.foldl_cons, ih]; simp
  rw [h]; simp

theorem initialCandidates_of_nodup (ITEMS : Items)
    (hn : (ITEMS.m_Items.map Prod.fst).Nodup) :
    initialCandidates ITEMS = ITEMS.m_Items.map (fun e => Itemset.empty.AddItem e.2) := by
  rw [initialCandidates_eq_map, Items.GetAll_eq_map, List.map_map]
  apply List.map_congr_left
  intro e he
  simp only [Function.comp, Items.GetIndex_of_mem ITEMS hn e he]

end Apriori

/-! ## Lemmas on subset enumeration -/

namespace Apriori

/-- The loop of `CalculateSubsets` with enough iterations left. -/
theorem CalculateSubsetsLoop_eq (A : List String) (n : Nat) :
    ∀ (result : List (List String)) (subset : List String) (i : Nat), A.length - i ≤ n →
      CalculateSubsetsLoop A n result subset i
        = result ++ (laterSubsets (A.drop i)).map (fun s => subset ++ s) := by
  induction n with
  | zero =>
    intro result subset i h
    have hi : A.length ≤ i := by omega
    simp [CalculateSubsetsLoop, List.drop_eq_nil_of_le hi, laterSubsets]
  | succ n ih =>
    intro result subset i h
    by_cases hi : i < A.length
    · have hd : A.drop i = A.getD i "" :: A.drop (i + 1) := by
        rw [List.getD_eq_getElem _ _ hi]
        exact List.drop_eq_getElem_cons hi
      simp only [CalculateSubsetsLoop, hi, if_true]
      rw [ih _ _ _ (by omega), ih _ _ _ (by omega), hd, laterSubsets]
      simp [List.append_assoc, List.map_append, List.map_map, Function.comp]
    · have hle : A.length ≤ i := Nat.le_of_not_lt hi
      simp [CalculateSubsetsLoop, hi, List.drop_eq_nil_of_le hle, laterSubsets]

theorem Subsets_eq (self : BitsApriori.Apriori) (A : List String) :
    self.Subsets A = [] :: laterSubsets A := by
  unfold Subsets CalculateSubsets
  rw [CalculateSubsetsLoop_eq A _ _ _ _ (Nat.le_refl _)]
  simp

theorem laterSubsets_perm (l : List String) : ([] :: laterSubsets l).Perm l.sublists' := by
  induction l with
  | nil => simp [laterSubsets]
  | cons a tl ih =>
    rw [laterSubsets, List.sublists'_cons]
    have h1 : ([] :: (([] :: laterSubsets tl).map (fun s => a :: s) ++ laterSubsets tl)).Perm
        (([] :: laterSubsets tl).map (fun s => a :: s) ++ ([] :: laterSubsets tl)) :=
      List.perm_middle.symm
    refine h1.trans (List.perm_append_comm.trans ?_)
    exact List.Perm.append ih (ih.map _)

theorem Subsets_perm (self : BitsApriori.Apriori) (A : List String) :
    (self.Subsets A).Perm A.sublists' := by
  rw [Subsets_eq]; exact laterSubsets_perm A

theorem mem_Subsets (self : BitsApriori.Apriori) (A s : List String) :
    s ∈ self.Subsets A ↔ s.Sublist A := by
  rw [(Subsets_perm self A).mem_iff, List.mem_sublists']

end Apriori

/-! ## Lemmas on the rules built -/

namespace Apriori

theorem foldl_push_map {α β : Type} (g : α → β) (l : List α) :
    ∀ init : List β, l.foldl (fun acc x => acc ++ [g x]) init = init ++ l.map g := by
  induction l with
  | nil => intro init; simp
  | cons a l ih => intro init; rw [List.foldl_cons, ih]; simp

/-- The two loops of `GenerateRules` as one enumeration. -/
theorem GenerateRules_eq_flatMap (self : BitsApriori.Apriori) (ITEMS : Items)
    (T : List Itemset) (itemset : List String) :
    self.GenerateRules ITEMS T itemset
      = (self.Subsets itemset).flatMap
          (fun subset => (splits subset).map
            (fun rule => (rule,
              FloatVal.gt (self.Confidence ITEMS T rule) self.m_MinConfidence))) := by
  unfold GenerateRules
  have hstep : ∀ (out : List (Rule × Bool)) (subset : List String),
      (if (subset.length == 1) = true then out
        else (List.range' 1 (subset.length - 1)).foldl
          (fun out antecedentPtr =>
            out ++ [((⟨subset.take antecedentPtr, subset.drop antecedentPtr⟩ : Rule),
              FloatVal.gt
                (self.Confidence ITEMS T ⟨subset.take antecedentPtr, subset.drop antecedentPtr⟩)
                self.m_MinConfidence)])
          out)
        = out ++ (splits subset).map
            (fun rule => (rule,
              FloatVal.gt (self.Confidence ITEMS T rule) self.m_MinConfidence)) := by
    intro out subset
    by_cases h1 : subset.length = 1
    · simp [h1, splits]
    · have : (subset.length == 1) = false := by simpa using h1
      rw [this]
      simp only [Bool.false_eq_true, if_false]
      rw [foldl_push_map
        (fun antecedentPtr =>
          ((⟨subset.take antecedentPtr, subset.drop antecedentPtr⟩ : Rule),
            FloatVal.gt
              (self.Confidence ITEMS T ⟨subset.take antecedentPtr, subset.drop antecedentPtr⟩)
              self.m_MinConfidence))]
      simp [splits, List.map_map, Function.comp]
  have hfun : (fun (out : List (Rule × Bool)) (subset : List String) =>
      if (subset.length == 1) = true then out
      else (List.range' 1 (subset.length - 1)).foldl
        (fun out antecedentPtr =>
          let rule : Rule := ⟨subset.take antecedentPtr, subset.drop antecedentPtr⟩
          out ++ [(rule,
            FloatVal.gt (self.Confidence ITEMS T rule) self.m_MinConfidence)])
        out)
      = fun out subset => out ++ (splits subset).map
          (fun rule => (rule,
            FloatVal.gt (self.Confidence ITEMS T rule) self.m_MinConfidence)) := by
    funext out subset
    exact hstep out subset
  rw [hfun, foldl_append_flatMap]
  exact List.nil_append _

theorem builtRules_eq (self : BitsApriori.Apriori) (ITEMS : Items) (T : List Itemset)
    (itemset : List String) :
    (self.GenerateRules ITEMS T itemset).map (fun e => e.1)
      = (self.Subsets itemset).flatMap splits := by
  rw [GenerateRules_eq_flatMap, List.map_flatMap]
  apply List.flatMap_congr
  intro subset _
  rw [List.map_map]
  exact List.map_id _

theorem mem_splits (subset : List String) (r : Rule) :
    r ∈ splits subset
      ↔ ∃ p, 1 ≤ p ∧ p < subset.length ∧ r = ⟨subset.take p, subset.drop p⟩ := by
  unfold splits
  simp only [List.mem_map, List.mem_range'_1]
  constructor
  · rintro ⟨p, ⟨h1, h2⟩, rfl⟩
    exact ⟨p, h1, by omega, rfl⟩
  · rintro ⟨p, h1, h2, rfl⟩
    exact ⟨p, ⟨h1, by omega⟩, rfl⟩

theorem mem_builtRules (self : BitsApriori.Apriori) (ITEMS : Items) (T : List Itemset)
    (itemset : List String) (r : Rule) :
    r ∈ (self.GenerateRules ITEMS T itemset).map (fun e => e.1)
      ↔ ∃ (subset : List String) (p : Nat), subset.Sublist itemset ∧ 1 ≤ p ∧ p < subset.length
          ∧ r = ⟨subset.take p, subset.drop p⟩ := by
  rw [builtRules_eq, List.mem_flatMap]
  constructor
  · rintro ⟨subset, hs, hr⟩
    obtain ⟨p, h1, h2, rfl⟩ := (mem_splits subset r).mp hr
    exact ⟨subset, p, (mem_Subsets self itemset subset).mp hs, h1, h2, rfl⟩
  · rintro ⟨subset, p, hs, h1, h2, rfl⟩
    exact ⟨subset, (mem_Subsets self itemset subset).mpr hs,
      (mem_splits subset _).mpr ⟨p, h1, h2, rfl⟩⟩

theorem not_reversed_of_nodup (l : List String) (hl : l.Nodup) (x y : String)
    (h1 : [x, y].Sublist l) (h2 : [y, x].Sublist l) : False := by
  induction l with
  | nil => exact absurd (List.sublist_nil.mp h1) (List.cons_ne_nil _ _)
  | cons a t ih =>
    rw [List.nodup_cons] at hl
    rcases List.sublist_cons_iff.mp h1 with h1 | ⟨r, hr, hrt⟩
    · rcases List.sublist_cons_iff.mp h2 with h2 | ⟨r', hr', -⟩
      · exact ih hl.2 h1 h2
      · have hy : y = a := (List.cons.inj hr').1
        have : y ∈ t := h1.subset (by simp)
        exact hl.1 (hy ▸ this)
    · have hx : x = a := (List.cons.inj hr).1
      rcases List.sublist_cons_iff.mp h2 with h2 | ⟨r', hr', hrt'⟩
      · have : x ∈ t := h2.subset (by simp)
        exact hl.1 (hx ▸ this)
      · have hy : y = a := (List.cons.inj hr').1
        have hr2 : [x] = r' := (List.cons.inj hr').2
        have : x ∈ t := hrt'.subset (by rw [← hr2]; simp)
        exact hl.1 (hx ▸ this)

/-- What membership among the built rules gives: the rule splits a subsequence of the label
sequence into two non-empty parts. -/
theorem builtRule_facts (self : BitsApriori.Apriori) (ITEMS : Items) (T : List Itemset)
    (itemset : List String) (r : Rule)
    (hr : r ∈ (self.GenerateRules ITEMS T itemset).map (fun e => e.1)) :
    r.antecedent ≠ [] ∧ r.consequent ≠ []
      ∧ (r.antecedent ++ r.consequent).Sublist itemset
      ∧ 2 ≤ (r.antecedent ++ r.consequent).length := by
  obtain ⟨subset, p, hs, h1, h2, rfl⟩ := (mem_builtRules self ITEMS T itemset r).mp hr
  refine ⟨?_, ?_, ?_, ?_⟩
  · intro h
    have := congrArg List.length h
    simp only [List.length_take, List.length_nil] at this
    omega
  · intro h
    have := congrArg List.length h
    simp only [List.length_drop, List.length_nil] at this
    omega
  · simp only [List.take_append_drop]; exact hs
  · simp only [List.take_append_drop]; omega

end Apriori

/-! ## Lemmas on the member listing -/

namespace Apriori

theorem listing_fold_some (ITEMS : Items) (F : Itemset) (l : List String) :
    ∀ (acc r : List String),
      l.foldlM
          (fun frequentItems item =>
            (F.HasItem (ITEMS.GetIndex item)).map
              (fun b => if b then frequentItems ++ [item] else frequentItems))
          acc = some r →
        r = acc ++ l.filter (fun item => F.member (ITEMS.GetIndex item)) := by
  induction l with
  | nil =>
    intro acc r h
    simp only [List.foldlM_nil] at h
    simpa using (Option.some.inj h).symm
  | cons a l ih =>
    intro acc r h
    rw [List.foldlM_cons] at h
    cases hb : F.HasItem (ITEMS.GetIndex a) with
    | none => rw [hb] at h; exact Option.noConfusion h
    | some b =>
      rw [hb] at h
      have hm : F.member (ITEMS.GetIndex a) = b := by simp [Itemset.member, hb]
      have h' := ih _ r h
      rw [h']
      cases b <;> simp [hm]

theorem listing_fold_defined (ITEMS : Items) (F : Itemset) (l : List String)
    (hl : ∀ item ∈ l, ITEMS.GetIndex item / 8 < F.m_Blocks.length) :
    ∀ (acc : List String),
      l.foldlM
          (fun frequentItems item =>
            (F.HasItem (ITEMS.GetIndex item)).map
              (fun b => if b then frequentItems ++ [item] else frequentItems))
          acc
        = some (acc ++ l.filter (fun item => F.member (ITEMS.GetIndex item))) := by
  induction l with
  | nil => intro acc; simp
  | cons a l ih =>
    intro acc
    rw [List.foldlM_cons,
      Itemset.HasItem_eq_some_member F _ (hl a (List.mem_cons_self _ _))]
    have h' := ih (fun item hi => hl item (List.mem_cons_of_mem _ hi))
    cases hm : F.member (ITEMS.GetIndex a)
    · simpa [hm] using h' acc
    · simpa [hm] using h' (acc ++ [a])

theorem frequentItems_eq_filter (ITEMS : Items) (F : Itemset) (labels : List String)
    (h : frequentItems ITEMS F = some labels) :
    labels = ITEMS.GetAll.filter (fun item => F.member (ITEMS.GetIndex item)) := by
  have := listing_fold_some ITEMS F ITEMS.GetAll [] labels h
  simpa using this

theorem frequentItems_defined (ITEMS : Items) (F : Itemset)
    (hl : ∀ item ∈ ITEMS.GetAll, ITEMS.GetIndex item / 8 < F.m_Blocks.length) :
    frequentItems ITEMS F
      = some (ITEMS.GetAll.filter (fun item => F.member (ITEMS.GetIndex item))) := by
  have := listing_fold_defined ITEMS F ITEMS.GetAll hl []
  simpa using this

end Apriori

/-! ## Lemmas on the ordering of supports -/

namespace Apriori

/-- Support is anti-monotone: an itemset whose positions all lie in another is held by at
least as many transactions. -/
theorem countP_subset_mono (T : List Itemset) (a b : Itemset)
    (hab : ∀ p, a.member p = true → b.member p = true) :
    T.countP (fun t => b.isSubsetOf t) ≤ T.countP (fun t => a.isSubsetOf t) := by
  apply List.countP_mono_left
  intro t _ hb
  rw [Itemset.isSubsetOf_iff] at hb ⊢
  exact fun p hp => hb p (hab p hp)

theorem Support_eq_count (self : BitsApriori.Apriori) (T : List Itemset) (s : Itemset)
    (hT : T ≠ []) (hTw : ∀ t ∈ T, t.WellFormed ∧ t.PositionsBelow 64) (hs : s.WellFormed)
    (hs64 : s.PositionsBelow 64) :
    self.Support T s
      = FloatVal.fin ((T.countP (fun t => s.isSubsetOf t) : ℚ) / (T.length : ℚ)) := by
  rw [Support_of_ne_nil self T s hT, frequency_eq_countP_subset T s hs hs64 hTw]

theorem positive_of_frequent (m : FloatVal) (q : ℚ)
    (hmin : FloatVal.gt m (FloatVal.fin 0) = true)
    (hfreq : FloatVal.ge (FloatVal.fin q) m = true) : 0 < q := by
  cases m with
  | fin v =>
    simp only [FloatVal.gt, FloatVal.lt, FloatVal.ge, FloatVal.le, decide_eq_true_eq]
      at hmin hfreq
    exact lt_of_lt_of_le hmin hfreq
  | posInf => simp [FloatVal.ge, FloatVal.le] at hfreq
  | negInf => simp [FloatVal.gt, FloatVal.lt] at hmin
  | nan => simp [FloatVal.gt, FloatVal.lt] at hmin

end Apriori

/-! ## Confidence where the fold and the listing are exact -/

/-- For a rule whose labels have positions below 64, over transactions with byte blocks and
no position from 64 on, at least one of which holds the antecedent: the itemset of the
rule holds exactly the positions of the antecedent or the consequent, `Confidence(rule)` is
the support of that itemset divided by the support of the antecedent (a finite value, the
divisor being positive), and it is exactly 1 when every transaction that holds the
antecedent holds the whole rule itemset. -/
theorem Confidence_is_support_ratio_of_below (self : Apriori) (ITEMS : Items) (T : List Itemset)
    (rule : Rule)
    (hpos : ∀ item ∈ rule.antecedent ++ rule.consequent, ITEMS.GetIndex item < 64)
    (hT : ∀ t ∈ T, t.WellFormed ∧ t.PositionsBelow 64)
    (hex : ∃ t ∈ T, (rule.GetAntecedent ITEMS).isSubsetOf t = true) :
    (∀ p, (rule.ToItemset ITEMS).member p
        = ((rule.GetAntecedent ITEMS).member p || (rule.GetConsequent ITEMS).member p))
      ∧ self.Support T (rule.ToItemset ITEMS)
          = FloatVal.fin ((T.countP (fun t => (rule.ToItemset ITEMS).isSubsetOf t) : ℚ)
              / (T.length : ℚ))
      ∧ self.Support T (rule.GetAntecedent ITEMS)
          = FloatVal.fin ((T.countP (fun t => (rule.GetAntecedent ITEMS).isSubsetOf t) : ℚ)
              / (T.length : ℚ))
      ∧ 0 < ((T.countP (fun t => (rule.GetAntecedent ITEMS).isSubsetOf t) : ℚ)
              / (T.length : ℚ))
      ∧ self.Confidence ITEMS T rule
          = FloatVal.div (self.Support T (rule.ToItemset ITEMS))
              (self.Support T (rule.GetAntecedent ITEMS))
      ∧ self.Confidence ITEMS T rule
          = FloatVal.fin (((T.countP (fun t => (rule.ToItemset ITEMS).isSubsetOf t) : ℚ)
                / (T.length : ℚ))
              / ((T.countP (fun t => (rule.GetAntecedent ITEMS).isSubsetOf t) : ℚ)
                / (T.length : ℚ)))
      ∧ ((∀ t ∈ T, (rule.GetAntecedent ITEMS).isSubsetOf t = true →
            (rule.ToItemset ITEMS).isSubsetOf t = true) →
          self.Confidence ITEMS T rule = FloatVal.fin 1) := by
  obtain ⟨t0, ht0, hsub0⟩ := hex
  have hne : T ≠ [] := List.ne_nil_of_mem ht0
  have hTw : ∀ t ∈ T, t.WellFormed ∧ t.PositionsBelow 64 := hT
  have hlen : (0 : ℚ) < (T.length : ℚ) := by
    have : 0 < T.length := List.length_pos.mpr hne
    exact_mod_cast this
  have hca : 0 < T.countP (fun t => (rule.GetAntecedent ITEMS).isSubsetOf t) :=
    List.countP_pos_iff.mpr ⟨t0, ht0, hsub0⟩
  have hcaq : (0 : ℚ) < (T.countP (fun t => (rule.GetAntecedent ITEMS).isSubsetOf t) : ℚ) := by
    exact_mod_cast hca
  have hqa : (0 : ℚ) < (T.countP (fun t => (rule.GetAntecedent ITEMS).isSubsetOf t) : ℚ)
      / (T.length : ℚ) := div_pos hcaq hlen
  have hSf : self.Support T (rule.ToItemset ITEMS)
      = FloatVal.fin ((T.countP (fun t => (rule.ToItemset ITEMS).isSubsetOf t) : ℚ)
          / (T.length : ℚ)) := by
    rw [Apriori.Support_of_ne_nil self T _ hne,
      Apriori.frequency_eq_countP_subset T _ (Rule.WellFormed_ToItemset ITEMS rule)
        (Rule.PositionsBelow_ToItemset ITEMS rule hpos) hTw]
  have hSa : self.Support T (rule.GetAntecedent ITEMS)
      = FloatVal.fin ((T.countP (fun t => (rule.GetAntecedent ITEMS).isSubsetOf t) : ℚ)
          / (T.length : ℚ)) := by
    rw [Apriori.Support_of_ne_nil self T _ hne,
      Apriori.frequency_eq_countP_subset T _ (Rule.WellFormed_GetAntecedent ITEMS rule)
        (Rule.PositionsBelow_GetAntecedent ITEMS rule hpos) hTw]
  have hconf : self.Confidence ITEMS T rule
      = FloatVal.fin (((T.countP (fun t => (rule.ToItemset ITEMS).isSubsetOf t) : ℚ)
            / (T.length : ℚ))
          / ((T.countP (fun t => (rule.GetAntecedent ITEMS).isSubsetOf t) : ℚ)
            / (T.length : ℚ))) := by
    unfold Apriori.Confidence
    rw [hSf, hSa]
    simp only [FloatVal.div, if_neg (ne_of_gt hqa)]
  refine ⟨Rule.member_ToItemset_union ITEMS rule, hSf, hSa, hqa, rfl, hconf, ?_⟩
  intro hall
  have hcount : T.countP (fun t => (rule.ToItemset ITEMS).isSubsetOf t)
      = T.countP (fun t => (rule.GetAntecedent ITEMS).isSubsetOf t) := by
    apply List.countP_congr
    intro t ht
    constructor
    · intro hfull
      rw [Itemset.isSubsetOf_iff] at hfull ⊢
      intro p hp
      apply hfull p
      rw [Rule.member_ToItemset_union, hp, Bool.true_or]
    · exact hall t ht
  rw [hconf, hcount, div_self (ne_of_gt hqa)]

/-- Over a non-empty collection of transactions with byte blocks and no position from 64
on, for `minSupport > 0`,
an itemset `F` with byte blocks and no position from 64 on whose support is at least
`minSupport`, and a rule built from the labels listed for `F`: the supports of the
antecedent, of the rule itemset and of `F` are finite and descend in that order, the last is
positive, and the confidence is their finite quotient, greater than 0 and at most 1. -/
theorem Confidence_within_unit_interval_of_listing (self : Apriori) (ITEMS : Items)
    (T : List Itemset) (F : Itemset) (labels : List String) (r : Rule)
    (hT : T ≠ []) (hTw : ∀ t ∈ T, t.WellFormed ∧ t.PositionsBelow 64)
    (hF : F.WellFormed) (hF64 : F.PositionsBelow 64)
    (hmin : FloatVal.gt self.m_MinSupport (FloatVal.fin 0) = true)
    (hfreq : FloatVal.ge (self.Support T F) self.m_MinSupport = true)
    (hlab : Apriori.frequentItems ITEMS F = some labels)
    (hr : r ∈ (self.GenerateRules ITEMS T labels).map (fun e => e.1)) :
    ∃ qa qf qF : ℚ,
      self.Support T (r.GetAntecedent ITEMS) = FloatVal.fin qa
        ∧ self.Support T (r.ToItemset ITEMS) = FloatVal.fin qf
        ∧ self.Support T F = FloatVal.fin qF
        ∧ qf ≤ qa ∧ qF ≤ qf ∧ 0 < qF
        ∧ self.Confidence ITEMS T r = FloatVal.fin (qf / qa)
        ∧ 0 < qf / qa ∧ qf / qa ≤ 1 := by
  obtain ⟨-, -, hsub, -⟩ := Apriori.builtRule_facts self ITEMS T labels r hr
  have hlabels := Apriori.frequentItems_eq_filter ITEMS F labels hlab
  have hmemF : ∀ item ∈ r.antecedent ++ r.consequent, F.member (ITEMS.GetIndex item) = true := by
    intro item hitem
    have h1 : item ∈ labels := hsub.subset hitem
    rw [hlabels] at h1
    exact (List.mem_filter.mp h1).2
  have hpos : ∀ item ∈ r.antecedent ++ r.consequent, ITEMS.GetIndex item < 64 := by
    intro item hitem
    by_contra hc
    have := hF64 _ (Nat.le_of_not_lt hc)
    rw [hmemF item hitem] at this
    exact Bool.noConfusion this
  have hfullF : ∀ p, (r.ToItemset ITEMS).member p = true → F.member p = true := by
    intro p hp
    rw [Rule.member_ToItemset, decide_eq_true_eq] at hp
    obtain ⟨item, hitem, rfl⟩ := List.mem_map.mp hp
    exact hmemF item hitem
  have hantefull : ∀ p, (r.GetAntecedent ITEMS).member p = true →
      (r.ToItemset ITEMS).member p = true := by
    intro p hp
    rw [Rule.member_ToItemset_union, hp, Bool.true_or]
  have hSa := Apriori.Support_eq_count self T _ hT hTw (Rule.WellFormed_GetAntecedent ITEMS r)
    (Rule.PositionsBelow_GetAntecedent ITEMS r hpos)
  have hSf := Apriori.Support_eq_count self T _ hT hTw (Rule.WellFormed_ToItemset ITEMS r)
    (Rule.PositionsBelow_ToItemset ITEMS r hpos)
  have hSF := Apriori.Support_eq_count self T F hT hTw hF hF64
  have hlen : (0 : ℚ) < (T.length : ℚ) := by
    have : 0 < T.length := List.length_pos.mpr hT
    exact_mod_cast this
  have h1 : ((T.countP (fun t => (r.ToItemset ITEMS).isSubsetOf t) : ℚ) / (T.length : ℚ))
      ≤ ((T.countP (fun t => (r.GetAntecedent ITEMS).isSubsetOf t) : ℚ) / (T.length : ℚ)) := by
    apply div_le_div_of_nonneg_right _ (le_of_lt hlen)
    exact_mod_cast Apriori.countP_subset_mono T _ _ hantefull
  have h2 : ((T.countP (fun t => F.isSubsetOf t) : ℚ) / (T.length : ℚ))
      ≤ ((T.countP (fun t => (r.ToItemset ITEMS).isSubsetOf t) : ℚ) / (T.length : ℚ)) := by
    apply div_le_div_of_nonneg_right _ (le_of_lt hlen)
    exact_mod_cast Apriori.countP_subset_mono T _ _ hfullF
  have h3 : (0 : ℚ) < ((T.countP (fun t => F.isSubsetOf t) : ℚ) / (T.length : ℚ)) := by
    rw [hSF] at hfreq
    exact Apriori.positive_of_frequent _ _ hmin hfreq
  have hqf := lt_of_lt_of_le h3 h2
  have hqa := lt_of_lt_of_le hqf h1
  refine ⟨_, _, _, hSa, hSf, hSF, h1, h2, h3, ?_, div_pos hqf hqa, (div_le_one hqa).mpr h1⟩
  unfold Apriori.Confidence
  rw [hSf, hSa]
  simp only [FloatVal.div, if_neg (ne_of_gt hqa)]

/-! ## The claims -/

/-- C1: over a non-empty transaction collection, with every stored block a byte and no
position from 64 on set in the itemset or in a transaction, `Support(itemset)` is the number
of transactions that hold every position set in the itemset, divided by the number of
transactions. -/
theorem C1_support_counts_supersets (self : Apriori) (T : List Itemset) (s : Itemset)
    (hT : T ≠ []) (hs : s.WellFormed) (hs64 : s.PositionsBelow 64)
    (hTw : ∀ t ∈ T, t.WellFormed ∧ t.PositionsBelow 64) :
    self.Support T s
        = FloatVal.fin ((T.countP (fun t => s.isSubsetOf t) : ℚ) / (T.length : ℚ))
      ∧ ∀ t : Itemset, (s.isSubsetOf t = true
          ↔ ∀ p, s.HasItem p = some true → t.HasItem p = some true) := by
  constructor
  · rw [Apriori.Support_of_ne_nil self T s hT,
      Apriori.frequency_eq_countP_subset T s hs hs64 hTw]
  · intro t
    rw [Itemset.isSubsetOf_iff]
    simp only [Itemset.HasItem_eq_some_true]

/-- C1 at the transactions `{A,B}, {A,C}, {A,B,C}, {B,C}` and the itemset `{A,B}`. -/
theorem C1_support_counts_supersets_witness :
    (⟨FloatVal.fin (1 / 2), FloatVal.fin (7 / 10), FloatVal.fin (-1)⟩ : Apriori).Support
        [⟨[3]⟩, ⟨[5]⟩, ⟨[7]⟩, ⟨[6]⟩] ⟨[3]⟩
      = FloatVal.fin ((([⟨[3]⟩, ⟨[5]⟩, ⟨[7]⟩, ⟨[6]⟩] : List Itemset).countP
          (fun t => (⟨[3]⟩ : Itemset).isSubsetOf t) : ℚ)
          / (([⟨[3]⟩, ⟨[5]⟩, ⟨[7]⟩, ⟨[6]⟩] : List Itemset).length : ℚ)) :=
  (C1_support_counts_supersets ⟨FloatVal.fin (1 / 2), FloatVal.fin (7 / 10), FloatVal.fin (-1)⟩
    [⟨[3]⟩, ⟨[5]⟩, ⟨[7]⟩, ⟨[6]⟩] ⟨[3]⟩ (by decide) (by decide)
    (Itemset.positionsBelow_of_length_le _ (by decide))
    (fun t ht => ⟨by revert t; decide,
      Itemset.positionsBelow_of_length_le _ (by revert t; decide)⟩)).1

/-- C2: after `A.AddItemset(B)` the membership of every position is the OR of the two
memberships (a position beyond a storage counting as absent), `HasItem` is defined exactly
on the positions of the first `max` blocks, and the block count is the maximum of the two. -/
theorem C2_AddItemset_is_union (A B : Itemset) :
    (∀ i, (A.AddItemset B).member i = (A.member i || B.member i))
      ∧ (A.AddItemset B).m_Blocks.length = max A.m_Blocks.length B.m_Blocks.length
      ∧ ∀ i, i / 8 < max A.m_Blocks.length B.m_Blocks.length →
          (A.AddItemset B).HasItem i = some (A.member i || B.member i) := by
  refine ⟨Itemset.member_AddItemset A B, Itemset.AddItemset_length A B, ?_⟩
  intro i hi
  rw [← Itemset.AddItemset_length A B] at hi
  rw [Itemset.HasItem_eq_some_member _ _ hi, Itemset.member_AddItemset]

/-- C3: after `S.AddItem(p)` position `p` is held, the storage covers `p`, the block count
has not decreased, and every other position keeps its membership (absent when it was beyond
the old storage); an itemset built from the empty one by `AddItem` calls holds exactly the
positions that were added. -/
theorem C3_AddItem_sets_exactly_p (S : Itemset) (p : Nat) :
    (S.AddItem p).HasItem p = some true
      ∧ p / 8 < (S.AddItem p).m_Blocks.length
      ∧ S.m_Blocks.length ≤ (S.AddItem p).m_Blocks.length
      ∧ (∀ q, q ≠ p → (S.AddItem p).member q = S.member q)
      ∧ ∀ (ps : List Nat) (i : Nat),
          (ps.foldl Itemset.AddItem Itemset.empty).member i = decide (i ∈ ps) := by
  refine ⟨?_, Itemset.AddItem_length_gt S p, Itemset.AddItem_length_ge S p, ?_, ?_⟩
  · rw [Itemset.HasItem_eq_some_true, Itemset.member_AddItem]; simp
  · intro q hq
    rw [Itemset.member_AddItem]; simp [hq]
  · intro ps i
    rw [Itemset.member_foldl_AddItem, Itemset.member_empty, Bool.false_or]

/-- C4, evaluated where it fails: the itemset holding positions 0 and 64 and the itemset
holding position 0 alone have the same folded value, so `IsEqual` answers true although
position 64 is held by the first only. -/
theorem C4_IsEqual_conflates_beyond_64 :
    ((Itemset.empty.AddItem 0).AddItem 64).IsEqual (Itemset.empty.AddItem 0) = true
      ∧ ((Itemset.empty.AddItem 0).AddItem 64).HasItem 64 = some true
      ∧ (Itemset.empty.AddItem 0).member 64 = false
      ∧ ((Itemset.empty.AddItem 0).AddItem 64).WellFormed
      ∧ (Itemset.empty.AddItem 0).WellFormed := by
  decide

/-- C5, evaluated where it fails: for the transactions `{A}, {B}` and `minSupport = 0.5`
both singletons are frequent (the level computed before the loop), the first joined level is
empty, and `frequentItemsets` is left empty. -/
theorem C5_singleton_level_is_dropped :
    (Apriori.Apriori ⟨[("A", 0), ("B", 1)], 2⟩
        [Itemset.empty.AddItem 0, Itemset.empty.AddItem 1]
        (FloatVal.fin (1 / 2)) (FloatVal.fin (7 / 10)) Apriori.defaultMinLift).level0
        = [Itemset.empty.AddItem 0, Itemset.empty.AddItem 1]
      ∧ (Apriori.Apriori ⟨[("A", 0), ("B", 1)], 2⟩
        [Itemset.empty.AddItem 0, Itemset.empty.AddItem 1]
        (FloatVal.fin (1 / 2)) (FloatVal.fin (7 / 10)) Apriori.defaultMinLift).i = 1
      ∧ (Apriori.Apriori ⟨[("A", 0), ("B", 1)], 2⟩
        [Itemset.empty.AddItem 0, Itemset.empty.AddItem 1]
        (FloatVal.fin (1 / 2)) (FloatVal.fin (7 / 10)) Apriori.defaultMinLift).frequentItemsets
        = [] := by
  decide!

/-- C6: for the transactions `{A,B}, {A,C}, {A,B,C}, {B,C}` and `minSupport = 0.5`, whatever
the other thresholds and in whichever order the container enumerates the three labels:
each singleton has support 3/4, each pair 1/2 and the triple 1/4; the loop leaves at its
second iteration, the level filtered there being empty; the final collection holds exactly
`AB`, `AC` and `BC`, once each; and the test `i == _MAX_ITR` of the warning is false. -/
theorem C6_example_mining (minConfidence minLift : FloatVal) :
    ((⟨FloatVal.fin (1 / 2), minConfidence, minLift⟩ : Apriori).Support
          [⟨[3]⟩, ⟨[5]⟩, ⟨[7]⟩, ⟨[6]⟩] (Itemset.empty.AddItem 0) = FloatVal.fin (3 / 4)
      ∧ (⟨FloatVal.fin (1 / 2), minConfidence, minLift⟩ : Apriori).Support
          [⟨[3]⟩, ⟨[5]⟩, ⟨[7]⟩, ⟨[6]⟩] (Itemset.empty.AddItem 1) = FloatVal.fin (3 / 4)
      ∧ (⟨FloatVal.fin (1 / 2), minConfidence, minLift⟩ : Apriori).Support
          [⟨[3]⟩, ⟨[5]⟩, ⟨[7]⟩, ⟨[6]⟩] (Itemset.empty.AddItem 2) = FloatVal.fin (3 / 4)
      ∧ (⟨FloatVal.fin (1 / 2), minConfidence, minLift⟩ : Apriori).Support
          [⟨[3]⟩, ⟨[5]⟩, ⟨[7]⟩, ⟨[6]⟩] ((Itemset.empty.AddItem 0).AddItem 1)
            = FloatVal.fin (1 / 2)
      ∧ (⟨FloatVal.fin (1 / 2), minConfidence, minLift⟩ : Apriori).Support
          [⟨[3]⟩, ⟨[5]⟩, ⟨[7]⟩, ⟨[6]⟩] ((Itemset.empty.AddItem 0).AddItem 2)
            = FloatVal.fin (1 / 2)
      ∧ (⟨FloatVal.fin (1 / 2), minConfidence, minLift⟩ : Apriori).Support
          [⟨[3]⟩, ⟨[5]⟩, ⟨[7]⟩, ⟨[6]⟩] ((Itemset.empty.AddItem 1).AddItem 2)
            = FloatVal.fin (1 / 2)
      ∧ (⟨FloatVal.fin (1 / 2), minConfidence, minLift⟩ : Apriori).Support
          [⟨[3]⟩, ⟨[5]⟩, ⟨[7]⟩, ⟨[6]⟩] (((Itemset.empty.AddItem 0).AddItem 1).AddItem 2)
            = FloatVal.fin (1 / 4))
      ∧ [Itemset.empty.AddItem 0 |>.AddItem 1, Itemset.empty.AddItem 0 |>.AddItem 2,
          Itemset.empty.AddItem 0 |>.AddItem 1 |>.AddItem 2, Itemset.empty.AddItem 1 |>.AddItem 2]
          = ([⟨[3]⟩, ⟨[5]⟩, ⟨[7]⟩, ⟨[6]⟩] : List Itemset)
      ∧ ∀ m ∈ [("A", 0), ("B", 1), ("C", 2)].permutations,
          (Apriori.Apriori ⟨m, 3⟩ [⟨[3]⟩, ⟨[5]⟩, ⟨[7]⟩, ⟨[6]⟩]
              (FloatVal.fin (1 / 2)) minConfidence minLift).i = 2
          ∧ (⟨FloatVal.fin (1 / 2), minConfidence, minLift⟩ : Apriori).FrequentItemsets
              [⟨[3]⟩, ⟨[5]⟩, ⟨[7]⟩, ⟨[6]⟩]
              ((⟨FloatVal.fin (1 / 2), minConfidence, minLift⟩ : Apriori).CandidateItemsets
                (Apriori.Apriori ⟨m, 3⟩ [⟨[3]⟩, ⟨[5]⟩, ⟨[7]⟩, ⟨[6]⟩]
                  (FloatVal.fin (1 / 2)) minConfidence minLift).frequentItemsets) = []
          ∧ (Apriori.Apriori ⟨m, 3⟩ [⟨[3]⟩, ⟨[5]⟩, ⟨[7]⟩, ⟨[6]⟩]
              (FloatVal.fin (1 / 2)) minConfidence minLift).frequentItemsets.Perm
              [(Itemset.empty.AddItem 0).AddItem 1, (Itemset.empty.AddItem 0).AddItem 2,
                (Itemset.empty.AddItem 1).AddItem 2]
          ∧ (Apriori.Apriori ⟨m, 3⟩ [⟨[3]⟩, ⟨[5]⟩, ⟨[7]⟩, ⟨[6]⟩]
              (FloatVal.fin (1 / 2)) minConfidence minLift).warning = false := by
  refine ⟨?_, by decide, ?_⟩
  · simp only [Apriori.Support_eq_div]
    decide!
  · intro m hm
    obtain ⟨h1, h2, -, h4⟩ := Apriori.mining_indep ⟨m, 3⟩ [⟨[3]⟩, ⟨[5]⟩, ⟨[7]⟩, ⟨[6]⟩]
      (FloatVal.fin (1 / 2)) minConfidence minLift (FloatVal.fin (7 / 10))
      Apriori.defaultMinLift
    have h5 : (⟨FloatVal.fin (1 / 2), minConfidence, minLift⟩ : Apriori).CandidateItemsets
        = (⟨FloatVal.fin (1 / 2), FloatVal.fin (7 / 10), Apriori.defaultMinLift⟩ :
            Apriori).CandidateItemsets := rfl
    rw [h1, h2, h4, h5,
      Apriori.FrequentItemsets_congr ⟨FloatVal.fin (1 / 2), minConfidence, minLift⟩
        ⟨FloatVal.fin (1 / 2), FloatVal.fin (7 / 10), Apriori.defaultMinLift⟩ _ _ rfl]
    clear h1 h2 h4 h5
    revert m
    decide!

/-- C7: `FrequentItemsets` returns the candidates whose support is at least `minSupport`, in
their order and multiplicity; so every itemset of a level it returns, of the level computed
before the loop and of the final collection has support at least `minSupport`. -/
theorem C7_FrequentItemsets_filters (self : Apriori) (ITEMS : Items)
    (T candidateSets : List Itemset) :
    self.FrequentItemsets T candidateSets
        = candidateSets.filter
            (fun set => FloatVal.ge (self.Support T set) self.m_MinSupport)
      ∧ (∀ s ∈ self.FrequentItemsets T candidateSets,
          FloatVal.ge (self.Support T s) self.m_MinSupport = true)
      ∧ (∀ s ∈ (Apriori.Apriori ITEMS T self.m_MinSupport self.m_MinConfidence
            self.m_MinLift).level0,
          FloatVal.ge (self.Support T s) self.m_MinSupport = true)
      ∧ ∀ s ∈ (Apriori.Apriori ITEMS T self.m_MinSupport self.m_MinConfidence
            self.m_MinLift).frequentItemsets,
          FloatVal.ge (self.Support T s) self.m_MinSupport = true := by
  have hmem : ∀ (c : List Itemset), ∀ s ∈ self.FrequentItemsets T c,
      FloatVal.ge (self.Support T s) self.m_MinSupport = true := by
    intro c s hs
    rw [Apriori.FrequentItemsets_eq_filter] at hs
    exact (List.mem_filter.mp hs).2
  have hloop : ∀ (n i : Nat) (l0 fi : List Itemset),
      (∀ s ∈ fi, FloatVal.ge (self.Support T s) self.m_MinSupport = true) →
      ∀ s ∈ (self.mineLoop T n i l0 fi).2.2,
        FloatVal.ge (self.Support T s) self.m_MinSupport = true := by
    intro n
    induction n with
    | zero => intro i l0 fi hfi s hs; exact hfi s hs
    | succ n ih =>
      intro i l0 fi hfi s hs
      simp only [Apriori.mineLoop] at hs
      split at hs
      · exact hfi s hs
      · exact ih _ _ _ (hmem _) s hs
  refine ⟨Apriori.FrequentItemsets_eq_filter self T candidateSets, hmem candidateSets, ?_, ?_⟩
  · intro s hs
    exact hmem _ s hs
  · intro s hs
    exact hloop _ _ _ _ (fun _ h => absurd h (List.not_mem_nil _)) s hs

/-- C8: for the transactions `{A,B}, {A,C}, {A,B,C}, {B,C}` with `minSupport = 0.5` and
`minConfidence = 0.7`, whatever `minLift` and in whichever order the container enumerates
the labels: the listing is defined, it has the three frequent sets, one rule is built for
each, its confidence is 2/3 and it is not printed; the same holds for the rule built from any
two distinct labels in either order, and the rule `A -> B` in particular fails the test. -/
theorem C8_example_no_rule_emitted (minLift : FloatVal) :
    (∀ m ∈ [("A", 0), ("B", 1), ("C", 2)].permutations,
        (Apriori.Apriori ⟨m, 3⟩ [⟨[3]⟩, ⟨[5]⟩, ⟨[7]⟩, ⟨[6]⟩]
            (FloatVal.fin (1 / 2)) (FloatVal.fin (7 / 10)) minLift).listing.isSome = true
        ∧ ((Apriori.Apriori ⟨m, 3⟩ [⟨[3]⟩, ⟨[5]⟩, ⟨[7]⟩, ⟨[6]⟩]
            (FloatVal.fin (1 / 2)) (FloatVal.fin (7 / 10)) minLift).listing.getD []).length = 3
        ∧ (∀ e ∈ (Apriori.Apriori ⟨m, 3⟩ [⟨[3]⟩, ⟨[5]⟩, ⟨[7]⟩, ⟨[6]⟩]
              (FloatVal.fin (1 / 2)) (FloatVal.fin (7 / 10)) minLift).listing.getD [],
            e.2.length = 1 ∧ ∀ r ∈ e.2, r.2 = false
              ∧ Apriori.Confidence ⟨FloatVal.fin (1 / 2), FloatVal.fin (7 / 10), minLift⟩
                  ⟨m, 3⟩ [⟨[3]⟩, ⟨[5]⟩, ⟨[7]⟩, ⟨[6]⟩] r.1 = FloatVal.fin (2 / 3))
        ∧ (∀ x ∈ ["A", "B", "C"], ∀ y ∈ ["A", "B", "C"], x ≠ y →
            Apriori.GenerateRules ⟨FloatVal.fin (1 / 2), FloatVal.fin (7 / 10), minLift⟩
                ⟨m, 3⟩ [⟨[3]⟩, ⟨[5]⟩, ⟨[7]⟩, ⟨[6]⟩] [x, y] = [(⟨[x], [y]⟩, false)]
            ∧ Apriori.Confidence ⟨FloatVal.fin (1 / 2), FloatVal.fin (7 / 10), minLift⟩
                ⟨m, 3⟩ [⟨[3]⟩, ⟨[5]⟩, ⟨[7]⟩, ⟨[6]⟩] ⟨[x], [y]⟩ = FloatVal.fin (2 / 3))
        ∧ FloatVal.gt
            (Apriori.Confidence ⟨FloatVal.fin (1 / 2), FloatVal.fin (7 / 10), minLift⟩
              ⟨m, 3⟩ [⟨[3]⟩, ⟨[5]⟩, ⟨[7]⟩, ⟨[6]⟩] ⟨["A"], ["B"]⟩)
            (FloatVal.fin (7 / 10)) = false) := by
  have key : ∀ m ∈ [("A", 0), ("B", 1), ("C", 2)].permutations,
      (Apriori.Apriori ⟨m, 3⟩ [⟨[3]⟩, ⟨[5]⟩, ⟨[7]⟩, ⟨[6]⟩]
          (FloatVal.fin (1 / 2)) (FloatVal.fin (7 / 10)) Apriori.defaultMinLift).listing.isSome
          = true
      ∧ ((Apriori.Apriori ⟨m, 3⟩ [⟨[3]⟩, ⟨[5]⟩, ⟨[7]⟩, ⟨[6]⟩]
          (FloatVal.fin (1 / 2)) (FloatVal.fin (7 / 10))
          Apriori.defaultMinLift).listing.getD []).length = 3
      ∧ (∀ e ∈ (Apriori.Apriori ⟨m, 3⟩ [⟨[3]⟩, ⟨[5]⟩, ⟨[7]⟩, ⟨[6]⟩]
            (FloatVal.fin (1 / 2)) (FloatVal.fin (7 / 10)) Apriori.defaultMinLift).listing.getD [],
          e.2.length = 1 ∧ ∀ r ∈ e.2, r.2 = false
            ∧ Apriori.Confidence
                ⟨FloatVal.fin (1 / 2), FloatVal.fin (7 / 10), Apriori.defaultMinLift⟩
                ⟨m, 3⟩ [⟨[3]⟩, ⟨[5]⟩, ⟨[7]⟩, ⟨[6]⟩] r.1 = FloatVal.fin (2 / 3))
      ∧ (∀ x ∈ ["A", "B", "C"], ∀ y ∈ ["A", "B", "C"], x ≠ y →
          Apriori.GenerateRules
              ⟨FloatVal.fin (1 / 2), FloatVal.fin (7 / 10), Apriori.defaultMinLift⟩
              ⟨m, 3⟩ [⟨[3]⟩, ⟨[5]⟩, ⟨[7]⟩, ⟨[6]⟩] [x, y] = [(⟨[x], [y]⟩, false)]
          ∧ Apriori.Confidence
              ⟨FloatVal.fin (1 / 2), FloatVal.fin (7 / 10), Apriori.defaultMinLift⟩
              ⟨m, 3⟩ [⟨[3]⟩, ⟨[5]⟩, ⟨[7]⟩, ⟨[6]⟩] ⟨[x], [y]⟩ = FloatVal.fin (2 / 3))
      ∧ FloatVal.gt
          (Apriori.Confidence
            ⟨FloatVal.fin (1 / 2), FloatVal.fin (7 / 10), Apriori.defaultMinLift⟩
            ⟨m, 3⟩ [⟨[3]⟩, ⟨[5]⟩, ⟨[7]⟩, ⟨[6]⟩] ⟨["A"], ["B"]⟩)
          (FloatVal.fin (7 / 10)) = false := by
    decide!
  intro m hm
  have hc : Apriori.Confidence ⟨FloatVal.fin (1 / 2), FloatVal.fin (7 / 10), minLift⟩
      = Apriori.Confidence
          ⟨FloatVal.fin (1 / 2), FloatVal.fin (7 / 10), Apriori.defaultMinLift⟩ := rfl
  have hg : Apriori.GenerateRules ⟨FloatVal.fin (1 / 2), FloatVal.fin (7 / 10), minLift⟩
      = Apriori.GenerateRules
          ⟨FloatVal.fin (1 / 2), FloatVal.fin (7 / 10), Apriori.defaultMinLift⟩ := rfl
  rw [Apriori.Apriori_minLift_indep _ _ _ _ minLift Apriori.defaultMinLift, hc, hg]
  exact key m hm

/-- C8 at the enumeration order `A, B, C` and the default `minLift`: the listing is defined,
it is the three pairs each with its one rejected rule, and `A -> B` fails the test. -/
theorem C8_example_no_rule_emitted_witness :
    (Apriori.Apriori ⟨[("A", 0), ("B", 1), ("C", 2)], 3⟩ [⟨[3]⟩, ⟨[5]⟩, ⟨[7]⟩, ⟨[6]⟩]
        (FloatVal.fin (1 / 2)) (FloatVal.fin (7 / 10)) Apriori.defaultMinLift).listing
        = some [(["A", "B"], [(⟨["A"], ["B"]⟩, false)]), (["A", "C"], [(⟨["A"], ["C"]⟩, false)]),
            (["B", "C"], [(⟨["B"], ["C"]⟩, false)])]
      ∧ [("A", 0), ("B", 1), ("C", 2)] ∈ [("A", 0), ("B", 1), ("C", 2)].permutations
      ∧ FloatVal.gt
          (Apriori.Confidence
            ⟨FloatVal.fin (1 / 2), FloatVal.fin (7 / 10), Apriori.defaultMinLift⟩
            ⟨[("A", 0), ("B", 1), ("C", 2)], 3⟩ [⟨[3]⟩, ⟨[5]⟩, ⟨[7]⟩, ⟨[6]⟩] ⟨["A"], ["B"]⟩)
          (FloatVal.fin (7 / 10)) = false :=
  ⟨by decide!, by decide,
    (C8_example_no_rule_emitted Apriori.defaultMinLift [("A", 0), ("B", 1), ("C", 2)]
      (by decide)).2.2.2.2⟩

/-- C9, evaluated where it fails: with 66 labels, the rule `A -> B` has positions 0 and 1,
three of the five transactions hold `A` and each of them holds `B`, so every transaction
that holds the antecedent holds the rule itemset; but the transaction `{X}`, whose only
position is 64, folds to the value of `{A}` and is counted as holding `A`: the support of
the antecedent is 4/5, that of the rule itemset 3/5, and the confidence is 3/4, not 1. The
rule `B -> A` fares the same through the transaction `{W}`. -/
theorem C9_confidence_miscounts_beyond_64 :
    Apriori.Confidence ⟨FloatVal.fin (1 / 2), FloatVal.fin (7 / 10), Apriori.defaultMinLift⟩
        Inputs.wideItems Inputs.wideTransactions ⟨["A"], ["B"]⟩ = FloatVal.fin (3 / 4)
      ∧ Apriori.Confidence ⟨FloatVal.fin (1 / 2), FloatVal.fin (7 / 10), Apriori.defaultMinLift⟩
        Inputs.wideItems Inputs.wideTransactions ⟨["B"], ["A"]⟩ = FloatVal.fin (3 / 4)
      ∧ Apriori.Support ⟨FloatVal.fin (1 / 2), FloatVal.fin (7 / 10), Apriori.defaultMinLift⟩
        Inputs.wideTransactions ((⟨["A"], ["B"]⟩ : Rule).GetAntecedent Inputs.wideItems)
        = FloatVal.fin (4 / 5)
      ∧ Apriori.Support ⟨FloatVal.fin (1 / 2), FloatVal.fin (7 / 10), Apriori.defaultMinLift⟩
        Inputs.wideTransactions ((⟨["A"], ["B"]⟩ : Rule).ToItemset Inputs.wideItems)
        = FloatVal.fin (3 / 5)
      ∧ Inputs.wideItems.GetIndex "A" = 0 ∧ Inputs.wideItems.GetIndex "B" = 1
      ∧ (∀ t ∈ Inputs.wideTransactions,
          ((⟨["A"], ["B"]⟩ : Rule).GetAntecedent Inputs.wideItems).isSubsetOf t = true →
            ((⟨["A"], ["B"]⟩ : Rule).ToItemset Inputs.wideItems).isSubsetOf t = true)
      ∧ Inputs.wideTransactions.countP
          (fun t => ((⟨["A"], ["B"]⟩ : Rule).GetAntecedent Inputs.wideItems).isSubsetOf t) = 3
      ∧ (∀ t ∈ Inputs.wideTransactions, t.WellFormed)
      ∧ (Itemset.empty.AddItem 64).HasItem 0 = some false
      ∧ (Itemset.empty.AddItem 64).HasItem 64 = some true
      ∧ (Itemset.empty.AddItem 64).GetEncodedVal = (Itemset.empty.AddItem 0).GetEncodedVal := by
  decide!

/-- C10: `GenerateRules` builds, subset by subset in the order of `Subsets`, every
prefix/suffix split of every enumerated subset, and prints a rule exactly when its confidence
is strictly greater than `minConfidence`: the rules printed are the splits of the
subsequences of the label sequence that pass that test, in order, so a rule whose confidence
equals `minConfidence` is not printed; and neither the rules nor anything else the
constructor computes depends on `minLift`. -/
theorem C10_strict_confidence_and_unused_minLift (self : Apriori) (ITEMS : Items)
    (T : List Itemset) (itemset : List String) :
    self.GenerateRules ITEMS T itemset
        = (self.Subsets itemset).flatMap
            (fun subset => (Apriori.splits subset).map
              (fun rule => (rule,
                FloatVal.gt (self.Confidence ITEMS T rule) self.m_MinConfidence)))
      ∧ (∀ e ∈ self.GenerateRules ITEMS T itemset,
        e.2 = FloatVal.gt (self.Confidence ITEMS T e.1) self.m_MinConfidence)
      ∧ self.emittedRules ITEMS T itemset
          = ((self.GenerateRules ITEMS T itemset).map (fun e => e.1)).filter
              (fun r => FloatVal.gt (self.Confidence ITEMS T r) self.m_MinConfidence)
      ∧ self.emittedRules ITEMS T itemset
          = ((self.Subsets itemset).flatMap Apriori.splits).filter
              (fun r => FloatVal.gt (self.Confidence ITEMS T r) self.m_MinConfidence)
      ∧ (∀ r, r ∈ self.emittedRules ITEMS T itemset
          ↔ (∃ (subset : List String) (p : Nat), subset.Sublist itemset ∧ 1 ≤ p
                ∧ p < subset.length ∧ r = ⟨subset.take p, subset.drop p⟩)
              ∧ FloatVal.gt (self.Confidence ITEMS T r) self.m_MinConfidence = true)
      ∧ (∀ r, self.Confidence ITEMS T r = self.m_MinConfidence →
          r ∉ self.emittedRules ITEMS T itemset)
      ∧ (∀ minLift : FloatVal,
          Apriori.GenerateRules ⟨self.m_MinSupport, self.m_MinConfidence, minLift⟩ ITEMS T itemset
            = self.GenerateRules ITEMS T itemset)
      ∧ ∀ minLift : FloatVal,
          Apriori.Apriori ITEMS T self.m_MinSupport self.m_MinConfidence minLift
            = Apriori.Apriori ITEMS T self.m_MinSupport self.m_MinConfidence
                Apriori.defaultMinLift := by
  have hflag := Apriori.GenerateRules_flag self ITEMS T itemset
  have hem : self.emittedRules ITEMS T itemset
      = ((self.GenerateRules ITEMS T itemset).map (fun e => e.1)).filter
          (fun r => FloatVal.gt (self.Confidence ITEMS T r) self.m_MinConfidence) := by
    unfold Apriori.emittedRules
    exact Apriori.filter_flag_map _ _ hflag
  have hem2 : self.emittedRules ITEMS T itemset
      = ((self.Subsets itemset).flatMap Apriori.splits).filter
          (fun r => FloatVal.gt (self.Confidence ITEMS T r) self.m_MinConfidence) := by
    rw [hem, Apriori.builtRules_eq]
  refine ⟨Apriori.GenerateRules_eq_flatMap self ITEMS T itemset, hflag, hem, hem2, ?_, ?_,
    ?_, ?_⟩
  · intro r
    rw [hem, List.mem_filter, Apriori.mem_builtRules]
  · intro r hr hmem
    rw [hem] at hmem
    have := (List.mem_filter.mp hmem).2
    simp only [hr, FloatVal.gt, FloatVal.lt_irrefl] at this
    exact Bool.noConfusion this
  · intro minLift
    exact Apriori.GenerateRules_congr _ _ ITEMS T itemset rfl
  · intro minLift
    exact Apriori.Apriori_minLift_indep ITEMS T _ _ _ _

/-- C14, evaluated where it fails: on the itemset `{0, 1}`, which has one block, the read of
`HasItem(8)` is past the storage; and with nine known labels, of which only the first two are
frequent, the member listing of the driver makes that read, so the listing is undefined. -/
theorem C14_HasItem_reads_past_storage :
    (⟨[3]⟩ : Itemset).HasItem 8 = none
      ∧ Itemset.empty.HasItem 0 = none
      ∧ [2, 3, 4, 5, 6, 7, 8].foldl Itemset.AddItem Itemset.empty = ⟨[252, 1, 0]⟩
      ∧ (Apriori.Apriori
          ⟨[("a0", 0), ("a1", 1), ("a2", 2), ("a3", 3), ("a4", 4), ("a5", 5), ("a6", 6),
            ("a7", 7), ("a8", 8)], 9⟩
          [⟨[3]⟩, ⟨[3]⟩, ⟨[252, 1, 0]⟩]
          (FloatVal.fin (1 / 2)) (FloatVal.fin (7 / 10)) Apriori.defaultMinLift).frequentItemsets
          = [⟨[3]⟩]
      ∧ (Apriori.Apriori
          ⟨[("a0", 0), ("a1", 1), ("a2", 2), ("a3", 3), ("a4", 4), ("a5", 5), ("a6", 6),
            ("a7", 7), ("a8", 8)], 9⟩
          [⟨[3]⟩, ⟨[3]⟩, ⟨[252, 1, 0]⟩]
          (FloatVal.fin (1 / 2)) (FloatVal.fin (7 / 10)) Apriori.defaultMinLift).listing
          = none := by
  decide!

/-- C15, where it fails: over the empty transaction collection `Support` of the itemset
`{0}` is `NaN`, the quotient of `0` by the zero transaction count, not `0`. -/
theorem C15_Support_of_no_transactions_not_zero :
    Apriori.Support ⟨FloatVal.fin (1 / 2), FloatVal.fin (7 / 10), Apriori.defaultMinLift⟩ []
        (Itemset.empty.AddItem 0) = FloatVal.div (FloatVal.ofNat 0) (FloatVal.ofNat 0)
      ∧ Apriori.Support ⟨FloatVal.fin (1 / 2), FloatVal.fin (7 / 10), Apriori.defaultMinLift⟩ []
        (Itemset.empty.AddItem 0) = FloatVal.nan
      ∧ ¬ Apriori.Support
          ⟨FloatVal.fin (1 / 2), FloatVal.fin (7 / 10), Apriori.defaultMinLift⟩ []
          (Itemset.empty.AddItem 0) = FloatVal.fin 0 := by
  decide!

/-- C15 as amended: over the empty transaction collection `Support` has no guard: it is the
quotient of `0` by the zero transaction count, which is `NaN`, for every itemset. The test
`Support >= minSupport` then fails whatever `minSupport` is, `FrequentItemsets` keeps no
candidate, and for every dictionary the constructor leaves at its first iteration with an
empty level and an empty final collection and lists nothing; the empty dictionary gives no
candidate at all. -/
theorem C15_Support_of_no_transactions_is_nan (self : Apriori) (ITEMS : Items)
    (itemset : Itemset) (candidateSets : List Itemset) :
    self.Support [] itemset = FloatVal.div (FloatVal.ofNat 0) (FloatVal.ofNat 0)
      ∧ self.Support [] itemset = FloatVal.nan
      ∧ self.Support [] itemset ≠ FloatVal.fin 0
      ∧ FloatVal.ge (self.Support [] itemset) self.m_MinSupport = false
      ∧ self.FrequentItemsets [] candidateSets = []
      ∧ (Apriori.Apriori ITEMS [] self.m_MinSupport self.m_MinConfidence
          self.m_MinLift).level0 = []
      ∧ (Apriori.Apriori ITEMS [] self.m_MinSupport self.m_MinConfidence
          self.m_MinLift).frequentItemsets = []
      ∧ (Apriori.Apriori ITEMS [] self.m_MinSupport self.m_MinConfidence
          self.m_MinLift).i = 1
      ∧ (Apriori.Apriori ITEMS [] self.m_MinSupport self.m_MinConfidence
          self.m_MinLift).listing = some []
      ∧ Apriori.initialCandidates Items.empty = [] := by
  have h : ∀ (a : Apriori) (x : Itemset), a.Support [] x = FloatVal.nan := by
    intro a x
    simp [Apriori.Support, FloatVal.div, FloatVal.ofNat]
  have hge : ∀ (a : Apriori) (x : Itemset),
      FloatVal.ge (a.Support [] x) a.m_MinSupport = false := by
    intro a x
    rw [h]
    cases a.m_MinSupport <;> rfl
  have hfreq : ∀ (a : Apriori) (c : List Itemset), a.FrequentItemsets [] c = [] := by
    intro a c
    rw [Apriori.FrequentItemsets_eq_filter, List.filter_eq_nil_iff]
    intro x _
    rw [hge a x]
    exact Bool.false_ne_true
  have hdiv : FloatVal.div (FloatVal.ofNat 0) (FloatVal.ofNat 0) = FloatVal.nan := by
    simp [FloatVal.div, FloatVal.ofNat]
  have hloop : (⟨self.m_MinSupport, self.m_MinConfidence, self.m_MinLift⟩ : Apriori).mineLoop
      [] (Apriori._MAX_ITR - 0) 0 [] [] = (1, [], []) := by
    show Apriori.mineLoop _ [] (9 + 1) 0 [] [] = (1, [], [])
    simp only [Apriori.mineLoop, hfreq]
    rfl
  refine ⟨by rw [h, hdiv], h self itemset, by rw [h]; simp, hge self itemset,
    hfreq self candidateSets, ?_, ?_, ?_, ?_, rfl⟩
  · simp only [Apriori.Apriori, hfreq]
  · simp only [Apriori.Apriori, hfreq, hloop]
  · simp only [Apriori.Apriori, hfreq, hloop]
  · simp only [Apriori.Apriori, hfreq, hloop]
    rfl

/-- C12: after any run of `AddItem` calls on the empty dictionary, whatever iteration orders
the container takes, the label at place `k` of the first-seen order has position `k`,
`GetCount` is the number of distinct labels, and a further `AddItem` of a label already added
leaves the dictionary as it is. The first-seen order has no repetition, holds exactly the
labels of the calls, and grows by a label exactly when it was not seen before. -/
theorem C12_positions_follow_first_seen_order (calls : List (String × List (String × Nat))) :
    (∀ (k : Nat) (x : String), (Items.firstSeen (calls.map Prod.fst))[k]? = some x →
        (Items.empty.addAll calls).GetIndex x = k)
      ∧ (Items.empty.addAll calls).GetCount = (Items.firstSeen (calls.map Prod.fst)).length
      ∧ (∀ item ∈ calls.map Prod.fst, ∀ order : List (String × Nat),
          (Items.empty.addAll calls).AddItem item order = Items.empty.addAll calls)
      ∧ (Items.firstSeen (calls.map Prod.fst)).Nodup
      ∧ (∀ x, x ∈ Items.firstSeen (calls.map Prod.fst) ↔ x ∈ calls.map Prod.fst)
      ∧ ∀ (l : List String) (x : String),
          Items.firstSeen (l ++ [x])
            = if x ∈ l then Items.firstSeen l else Items.firstSeen l ++ [x] := by
  have h : (Items.empty.addAll calls).Holds (Items.firstSeen (calls.map Prod.fst)) :=
    Items.Holds.addAll calls Items.empty [] Items.Holds.empty
  have hmem : ∀ (l : List String) (x : String), x ∈ Items.firstSeen l ↔ x ∈ l := by
    intro l x
    unfold Items.firstSeen
    rw [Items.mem_foldl_firstSeen]
    simp
  refine ⟨fun k x hx => h.GetIndex k x hx, h.2.1, ?_, h.1, hmem _, ?_⟩
  · intro item hitem order
    have hin : item ∈ (Items.empty.addAll calls).m_Items.map Prod.fst :=
      h.keys.mem_iff.mpr ((hmem _ item).mpr hitem)
    have hc : ¬ ((Items.empty.addAll calls).m_Items.map Prod.fst).count item = 0 := by
      rw [List.count_eq_zero]
      exact fun hno => hno hin
    simp only [Items.AddItem, hc, if_false]
  · intro l x
    have hx := hmem l x
    unfold Items.firstSeen at hx ⊢
    rw [List.foldl_append]
    simp only [List.foldl_cons, List.foldl_nil]
    by_cases hxl : x ∈ l
    · rw [if_pos (hx.mpr hxl), if_pos hxl]
    · rw [if_neg (fun hh => hxl (hx.mp hh)), if_neg hxl]

/-- C16, where it fails: after `AddItem("A")` and `AddItem("B")`, with the container
iterating over the later entry first, `GetAll` is `B, A` (positions `1, 0`), and the labels
listed for the itemset `{A, B}` are `B, A` as well: neither is ascending by position. -/
theorem C16_GetAll_not_ascending :
    (Items.empty.addAll [("A", [("A", 0)]), ("B", [("B", 1), ("A", 0)])]).GetAll = ["B", "A"]
      ∧ ¬ List.Pairwise (fun a b => a < b)
          ((Items.empty.addAll [("A", [("A", 0)]), ("B", [("B", 1), ("A", 0)])]).GetAll.map
            (Items.empty.addAll [("A", [("A", 0)]), ("B", [("B", 1), ("A", 0)])]).GetIndex)
      ∧ Apriori.frequentItems
          (Items.empty.addAll [("A", [("A", 0)]), ("B", [("B", 1), ("A", 0)])])
          ((Itemset.empty.AddItem 0).AddItem 1) = some ["B", "A"]
      ∧ ((Apriori.Apriori
          (Items.empty.addAll [("A", [("A", 0)]), ("B", [("B", 1), ("A", 0)])])
          [(Itemset.empty.AddItem 0).AddItem 1]
          (FloatVal.fin (1 / 2)) (FloatVal.fin (7 / 10))
          Apriori.defaultMinLift).listing.getD []).map (fun e => e.1) = [["B", "A"]] := by
  decide!

/-- C16 as amended: `GetAll` returns the labels in the iteration order of the container;
when the member listing of an itemset is defined, it is the subsequence of `GetAll` of the
labels whose position the itemset holds, and it is defined when every position of the
dictionary lies within the storage of the itemset. With distinct keys the positions of the
labels of `GetAll` are the positions of the entries in iteration order, so `GetAll` is
ascending by position exactly when the container iterates in ascending position order; and
whenever `GetAll` is ascending by position, so is the listing. -/
theorem C16_GetAll_follows_container_order (ITEMS : Items) (F : Itemset) :
    ITEMS.GetAll = ITEMS.m_Items.map Prod.fst
      ∧ (∀ labels, Apriori.frequentItems ITEMS F = some labels →
          labels = ITEMS.GetAll.filter (fun item => F.member (ITEMS.GetIndex item))
            ∧ labels.Sublist ITEMS.GetAll)
      ∧ ((∀ item ∈ ITEMS.GetAll, ITEMS.GetIndex item / 8 < F.m_Blocks.length) →
          Apriori.frequentItems ITEMS F
            = some (ITEMS.GetAll.filter (fun item => F.member (ITEMS.GetIndex item))))
      ∧ ((ITEMS.m_Items.map Prod.fst).Nodup →
          ITEMS.GetAll.map ITEMS.GetIndex = ITEMS.m_Items.map Prod.snd
            ∧ (List.Pairwise (fun a b => a < b) (ITEMS.GetAll.map ITEMS.GetIndex)
                ↔ List.Pairwise (fun a b => a < b) (ITEMS.m_Items.map Prod.snd)))
      ∧ (List.Pairwise (fun a b => a < b) (ITEMS.GetAll.map ITEMS.GetIndex) →
          ∀ labels, Apriori.frequentItems ITEMS F = some labels →
            List.Pairwise (fun a b => a < b) (labels.map ITEMS.GetIndex)) := by
  have hsub : ∀ labels, Apriori.frequentItems ITEMS F = some labels →
      labels = ITEMS.GetAll.filter (fun item => F.member (ITEMS.GetIndex item))
        ∧ labels.Sublist ITEMS.GetAll := by
    intro labels h
    have he := Apriori.frequentItems_eq_filter ITEMS F labels h
    refine ⟨he, ?_⟩
    rw [he]
    exact List.filter_sublist _
  refine ⟨Items.GetAll_eq_map ITEMS, hsub, Apriori.frequentItems_defined ITEMS F, ?_, ?_⟩
  · intro hn
    have he := Items.map_GetIndex_GetAll ITEMS hn
    exact ⟨he, by rw [he]⟩
  · intro hall labels h
    exact hall.sublist ((hsub labels h).2.map ITEMS.GetIndex)

/-- C13: the constructor is a function of its inputs, and for two dictionaries with the
same entries with distinct keys, enumerated in different orders, over the same transactions
and `minSupport`: the loop leaves at the same iteration, and the two final collections hold
the same itemsets as often (hence the same folded values), as do the two levels computed
before the loop; the same is true of the loop started from any two rearrangements of a
level. -/
theorem C13_mining_independent_of_enumeration (ITEMS ITEMS' : Items) (T : List Itemset)
    (s c l c' l' : FloatVal)
    (hn : (ITEMS.m_Items.map Prod.fst).Nodup) (hp : ITEMS.m_Items.Perm ITEMS'.m_Items) :
    (Apriori.Apriori ITEMS T s c l).frequentItemsets.Perm
        (Apriori.Apriori ITEMS' T s c' l').frequentItemsets
      ∧ (∀ k, k ∈ (Apriori.Apriori ITEMS T s c l).frequentItemsets.map Itemset.GetEncodedVal
          ↔ k ∈ (Apriori.Apriori ITEMS' T s c' l').frequentItemsets.map Itemset.GetEncodedVal)
      ∧ (Apriori.Apriori ITEMS T s c l).i = (Apriori.Apriori ITEMS' T s c' l').i
      ∧ (Apriori.Apriori ITEMS T s c l).level0.Perm (Apriori.Apriori ITEMS' T s c' l').level0
      ∧ ∀ (self : Apriori) (n i : Nat) (l0 l0' : List Itemset), l0.Perm l0' →
          (self.mineLoop T n i l0 []).1 = (self.mineLoop T n i l0' []).1
            ∧ (self.mineLoop T n i l0 []).2.2.Perm (self.mineLoop T n i l0' []).2.2 := by
  have hn' : (ITEMS'.m_Items.map Prod.fst).Nodup := (hp.map Prod.fst).nodup_iff.mp hn
  have hc0 : (Apriori.initialCandidates ITEMS).Perm (Apriori.initialCandidates ITEMS') := by
    rw [Apriori.initialCandidates_of_nodup ITEMS hn,
      Apriori.initialCandidates_of_nodup ITEMS' hn']
    exact hp.map _
  have hl0 := Apriori.FrequentItemsets_perm ⟨s, c, l⟩ T hc0
  have hloop := Apriori.mineLoop_perm ⟨s, c, l⟩ T (Apriori._MAX_ITR - 0) 0 _ _ [] [] hl0
    (List.Perm.refl _)
  obtain ⟨h1, h2, -, h4⟩ := Apriori.mining_indep ITEMS' T s c l c' l'
  have hfi : (Apriori.Apriori ITEMS T s c l).frequentItemsets.Perm
      (Apriori.Apriori ITEMS' T s c' l').frequentItemsets := by
    rw [← h4]; exact hloop.2.2
  refine ⟨hfi, ?_, ?_, ?_, ?_⟩
  · intro k
    exact (hfi.map Itemset.GetEncodedVal).mem_iff
  · rw [← h1]; exact hloop.1
  · have h3 := (Apriori.mining_indep ITEMS' T s c l c' l').2.2.1
    rw [← h3]; exact hl0
  · intro self n i l0 l0' h
    have := Apriori.mineLoop_perm self T n i l0 l0' [] [] h (List.Perm.refl _)
    exact ⟨this.1, this.2.2⟩

/-- C13 at the transactions `{A,B}, {A,C}, {A,B,C}, {B,C}` and `minSupport = 0.5`, for the
dictionary enumerated as `A, B, C` and as `C, A, B`. -/
theorem C13_mining_independent_of_enumeration_witness :
    (Apriori.Apriori ⟨[("A", 0), ("B", 1), ("C", 2)], 3⟩ [⟨[3]⟩, ⟨[5]⟩, ⟨[7]⟩, ⟨[6]⟩]
        (FloatVal.fin (1 / 2)) (FloatVal.fin (7 / 10)) Apriori.defaultMinLift).frequentItemsets.Perm
      (Apriori.Apriori ⟨[("C", 2), ("A", 0), ("B", 1)], 3⟩ [⟨[3]⟩, ⟨[5]⟩, ⟨[7]⟩, ⟨[6]⟩]
        (FloatVal.fin (1 / 2)) (FloatVal.fin (7 / 10)) Apriori.defaultMinLift).frequentItemsets :=
  (C13_mining_independent_of_enumeration ⟨[("A", 0), ("B", 1), ("C", 2)], 3⟩
    ⟨[("C", 2), ("A", 0), ("B", 1)], 3⟩ [⟨[3]⟩, ⟨[5]⟩, ⟨[7]⟩, ⟨[6]⟩]
    (FloatVal.fin (1 / 2)) (FloatVal.fin (7 / 10)) Apriori.defaultMinLift
    (FloatVal.fin (7 / 10)) Apriori.defaultMinLift (by decide) (by decide)).1

/-- C17: `CandidateItemsets` returns, for the index pairs `i < j` of the level whose folded
values differ, taken once each, the join of the two itemsets, and nothing else; a join holds
exactly the positions of its two operands; the number of candidates is the number of such
pairs. -/
theorem C17_CandidateItemsets_joins_distinct_pairs (self : Apriori) (F : List Itemset) :
    self.CandidateItemsets F
        = (Apriori.candidatePairs F).map
            (fun ij => Apriori.joined (F.getD ij.1 Itemset.empty) (F.getD ij.2 Itemset.empty))
      ∧ (∀ i j, (i, j) ∈ Apriori.candidatePairs F
          ↔ i < j ∧ j < F.length
            ∧ (F.getD i Itemset.empty).GetEncodedVal ≠ (F.getD j Itemset.empty).GetEncodedVal)
      ∧ (Apriori.candidatePairs F).Nodup
      ∧ (∀ (a b : Itemset) (p : Nat),
          Apriori.joined a b = (Itemset.empty.AddItemset a).AddItemset b
            ∧ (Apriori.joined a b).member p = (a.member p || b.member p))
      ∧ (self.CandidateItemsets F).length = (Apriori.candidatePairs F).length := by
  refine ⟨Apriori.CandidateItemsets_eq_pairs self F, Apriori.mem_candidatePairs F,
    Apriori.nodup_candidatePairs F, fun a b p => ⟨rfl, Apriori.member_joined a b p⟩, ?_⟩
  rw [Apriori.CandidateItemsets_eq_pairs, List.length_map]

/-- C18: for a list `A` of pairwise distinct labels, `Subsets(A)` is a list of `2 ^ k` lists
for `k` the length of `A`; its elements are exactly the subsequences of `A`, no list occurs
twice, the empty list and `A` are among them; and the loop gives the same list with any number
of iterations left that is at least `k`. -/
theorem C18_Subsets_enumerates_subsequences (self : Apriori) (A : List String)
    (hA : A.Nodup) :
    (self.Subsets A).length = 2 ^ A.length
      ∧ (∀ s, s ∈ self.Subsets A ↔ s.Sublist A)
      ∧ (self.Subsets A).Nodup
      ∧ [] ∈ self.Subsets A
      ∧ A ∈ self.Subsets A
      ∧ ∀ n, A.length ≤ n → Apriori.CalculateSubsetsLoop A n [[]] [] 0 = self.Subsets A := by
  have hp := Apriori.Subsets_perm self A
  have hnd : (self.Subsets A).Nodup := hp.nodup_iff.mpr (List.nodup_sublists'.mpr hA)
  have hmem := Apriori.mem_Subsets self A
  refine ⟨?_, hmem, hnd, ?_, ?_, ?_⟩
  · rw [hp.length_eq, List.length_sublists']
  · exact (hmem []).mpr (List.nil_sublist A)
  · exact (hmem A).mpr (List.Sublist.refl A)
  · intro n hn
    rw [Apriori.Subsets_eq, Apriori.CalculateSubsetsLoop_eq A n _ _ _ (by omega)]
    simp

/-- C18 at the labels `A, B, C`: eight lists. -/
theorem C18_Subsets_enumerates_subsequences_witness :
    (Apriori.Subsets ⟨FloatVal.fin (1 / 2), FloatVal.fin (7 / 10), FloatVal.fin (-1)⟩
        ["A", "B", "C"]).length = 2 ^ ["A", "B", "C"].length
      ∧ Apriori.Subsets ⟨FloatVal.fin (1 / 2), FloatVal.fin (7 / 10), FloatVal.fin (-1)⟩
          ["A", "B", "C"]
        = [[], ["A"], ["A", "B"], ["A", "B", "C"], ["A", "C"], ["B"], ["B", "C"], ["C"]] :=
  ⟨(C18_Subsets_enumerates_subsequences
      ⟨FloatVal.fin (1 / 2), FloatVal.fin (7 / 10), FloatVal.fin (-1)⟩ ["A", "B", "C"]
      (by decide)).1, by decide⟩

/-- C19: the rules `GenerateRules` builds are, subset by subset in the order of `Subsets`,
the splits of the subset at each point `p` with `1 <= p < size`, the part before `p` as
antecedent and the part from `p` on as consequent; a subset of fewer than two labels gives
none and a subset of size `s` gives `s - 1`. Hence both parts of a built rule are non-empty,
their concatenation is an enumerated subset, and each antecedent label stands before each
consequent label in the label sequence, never after it when the labels are distinct. -/
theorem C19_rules_are_prefix_suffix_splits (self : Apriori) (ITEMS : Items)
    (T : List Itemset) (itemset : List String) :
    (self.GenerateRules ITEMS T itemset).map (fun e => e.1)
        = (self.Subsets itemset).flatMap Apriori.splits
      ∧ (∀ (subset : List String) (r : Rule), r ∈ Apriori.splits subset
          ↔ ∃ p, 1 ≤ p ∧ p < subset.length ∧ r = ⟨subset.take p, subset.drop p⟩)
      ∧ (∀ subset : List String, (Apriori.splits subset).length = subset.length - 1)
      ∧ (∀ subset : List String, subset.length < 2 → Apriori.splits subset = [])
      ∧ ∀ r ∈ (self.GenerateRules ITEMS T itemset).map (fun e => e.1),
          r.antecedent ≠ [] ∧ r.consequent ≠ []
            ∧ (r.antecedent ++ r.consequent) ∈ self.Subsets itemset
            ∧ 2 ≤ (r.antecedent ++ r.consequent).length
            ∧ ∀ x ∈ r.antecedent, ∀ y ∈ r.consequent,
                [x, y].Sublist itemset ∧ (itemset.Nodup → ¬ [y, x].Sublist itemset) := by
  refine ⟨Apriori.builtRules_eq self ITEMS T itemset, Apriori.mem_splits, ?_, ?_, ?_⟩
  · intro subset
    simp [Apriori.splits]
  · intro subset h
    have : subset.length - 1 = 0 := by omega
    simp [Apriori.splits, this]
  · intro r hr
    obtain ⟨ha, hc, hsub, hlen⟩ := Apriori.builtRule_facts self ITEMS T itemset r hr
    refine ⟨ha, hc, (Apriori.mem_Subsets self itemset _).mpr hsub, hlen, ?_⟩
    intro x hx y hy
    have hxy : [x, y].Sublist itemset := by
      have h1 : [x].Sublist r.antecedent := List.singleton_sublist.mpr hx
      have h2 : [y].Sublist r.consequent := List.singleton_sublist.mpr hy
      exact (List.Sublist.append h1 h2).trans hsub
    exact ⟨hxy, fun hn hrev => Apriori.not_reversed_of_nodup itemset hn x y hxy hrev⟩

/-- C11, where it fails: over the single transaction `{A,B,C}` the final frequent itemsets
are `{A,B,C}`, whose labels are `A, B, C`; the rule `A -> B` is among the rules built for it,
and the itemset of that rule lacks position 2, which the frequent itemset holds. -/
theorem C11_rule_union_smaller_than_source :
    (Apriori.Apriori ⟨[("A", 0), ("B", 1), ("C", 2)], 3⟩ [⟨[7]⟩]
        (FloatVal.fin (1 / 2)) (FloatVal.fin (7 / 10)) Apriori.defaultMinLift).frequentItemsets
        = [⟨[7]⟩, ⟨[7]⟩, ⟨[7]⟩]
      ∧ Apriori.frequentItems ⟨[("A", 0), ("B", 1), ("C", 2)], 3⟩ ⟨[7]⟩ = some ["A", "B", "C"]
      ∧ (⟨["A"], ["B"]⟩ : Rule) ∈
          (Apriori.GenerateRules
            ⟨FloatVal.fin (1 / 2), FloatVal.fin (7 / 10), Apriori.defaultMinLift⟩
            ⟨[("A", 0), ("B", 1), ("C", 2)], 3⟩ [⟨[7]⟩] ["A", "B", "C"]).map (fun e => e.1)
      ∧ "C" ∉ (⟨["A"], ["B"]⟩ : Rule).antecedent ++ (⟨["A"], ["B"]⟩ : Rule).consequent
      ∧ ((⟨["A"], ["B"]⟩ : Rule).ToItemset ⟨[("A", 0), ("B", 1), ("C", 2)], 3⟩).member 2 = false
      ∧ (⟨[7]⟩ : Itemset).member 2 = true := by
  decide!

/-- C11 as amended: the rules built from a sequence of distinct labels are exactly the
splits, at every point, of every subsequence of it of at least two labels, the whole sequence
included. Each rule partitions the subsequence it splits: both parts are non-empty, they
share no label, their concatenation is that subsequence, and the itemset of the rule holds
exactly its positions. The subsequence is the whole sequence when that has two labels; with
three labels or more some rule is built whose parts together are shorter than the
sequence. The labels listed for an itemset from a dictionary with distinct keys are
distinct. -/
theorem C11_rules_partition_a_subset (self : Apriori) (ITEMS : Items) (T : List Itemset)
    (itemset : List String) (hn : itemset.Nodup) :
    (∀ r ∈ (self.GenerateRules ITEMS T itemset).map (fun e => e.1),
        r.antecedent ≠ [] ∧ r.consequent ≠ []
          ∧ (∀ x ∈ r.antecedent, x ∉ r.consequent)
          ∧ (r.antecedent ++ r.consequent).Sublist itemset
          ∧ 2 ≤ (r.antecedent ++ r.consequent).length
          ∧ (∀ p, (r.ToItemset ITEMS).member p
              = decide (p ∈ (r.antecedent ++ r.consequent).map ITEMS.GetIndex))
          ∧ (itemset.length = 2 → r.antecedent ++ r.consequent = itemset))
      ∧ (∀ p, 1 ≤ p → p < itemset.length →
          (⟨itemset.take p, itemset.drop p⟩ : Rule)
            ∈ (self.GenerateRules ITEMS T itemset).map (fun e => e.1))
      ∧ (∀ subset : List String, subset.Sublist itemset → 2 ≤ subset.length →
          ∀ p, 1 ≤ p → p < subset.length →
            (⟨subset.take p, subset.drop p⟩ : Rule)
              ∈ (self.GenerateRules ITEMS T itemset).map (fun e => e.1))
      ∧ (∀ r : Rule, r ∈ (self.GenerateRules ITEMS T itemset).map (fun e => e.1)
          ↔ ∃ (subset : List String) (p : Nat), subset.Sublist itemset ∧ 2 ≤ subset.length
              ∧ 1 ≤ p ∧ p < subset.length ∧ r = ⟨subset.take p, subset.drop p⟩)
      ∧ (3 ≤ itemset.length →
          ∃ r ∈ (self.GenerateRules ITEMS T itemset).map (fun e => e.1),
            (r.antecedent ++ r.consequent).length < itemset.length
              ∧ r.antecedent ++ r.consequent ≠ itemset)
      ∧ ∀ (F : Itemset) (labels : List String), (ITEMS.m_Items.map Prod.fst).Nodup →
          Apriori.frequentItems ITEMS F = some labels → labels.Nodup := by
  have hall : ∀ subset : List String, subset.Sublist itemset →
      ∀ p, 1 ≤ p → p < subset.length →
        (⟨subset.take p, subset.drop p⟩ : Rule)
          ∈ (self.GenerateRules ITEMS T itemset).map (fun e => e.1) := by
    intro subset hs p h1 h2
    exact (Apriori.mem_builtRules self ITEMS T itemset _).mpr ⟨subset, p, hs, h1, h2, rfl⟩
  refine ⟨?_, ?_, ?_, ?_, ?_, ?_⟩
  rotate_right
  · intro F labels hk hl
    have he := Apriori.frequentItems_eq_filter ITEMS F labels hl
    rw [he, Items.GetAll_eq_map]
    exact hk.sublist (List.filter_sublist _)
  · intro r hr
    obtain ⟨ha, hc, hsub, hlen⟩ := Apriori.builtRule_facts self ITEMS T itemset r hr
    have hnd : (r.antecedent ++ r.consequent).Nodup := hn.sublist hsub
    refine ⟨ha, hc, ?_, hsub, hlen, Rule.member_ToItemset ITEMS r, ?_⟩
    · intro x hx hx'
      exact (List.nodup_append.mp hnd).2.2 hx hx'
    · intro h2
      exact hsub.eq_of_length_le (by omega)
  · intro p h1 h2
    exact hall itemset (List.Sublist.refl _) p h1 h2
  · intro subset hs _ p h1 h2
    exact hall subset hs p h1 h2
  · intro r
    rw [Apriori.mem_builtRules]
    constructor
    · rintro ⟨subset, p, hs, h1, h2, rfl⟩
      exact ⟨subset, p, hs, by omega, h1, h2, rfl⟩
    · rintro ⟨subset, p, hs, -, h1, h2, rfl⟩
      exact ⟨subset, p, hs, h1, h2, rfl⟩
  · intro h3
    have hlen : (itemset.take 2).length = 2 := by
      rw [List.length_take]; omega
    refine ⟨⟨(itemset.take 2).take 1, (itemset.take 2).drop 1⟩,
      hall (itemset.take 2) (List.take_sublist 2 itemset) 1 (Nat.le_refl 1) (by omega), ?_⟩
    have hcat : (itemset.take 2).take 1 ++ (itemset.take 2).drop 1 = itemset.take 2 :=
      List.take_append_drop 1 _
    refine ⟨?_, ?_⟩
    · show ((itemset.take 2).take 1 ++ (itemset.take 2).drop 1).length < itemset.length
      rw [hcat, hlen]; omega
    · show (itemset.take 2).take 1 ++ (itemset.take 2).drop 1 ≠ itemset
      rw [hcat]
      intro he
      have := congrArg List.length he
      rw [hlen] at this
      omega

/-- C11 as amended, at the labels `A, B, C`: the rule `A -> B`, which splits the subsequence
`A, B`, is among the rules built, its parts share no label, and its itemset holds the
positions of `A` and `B` only. -/
theorem C11_rules_partition_a_subset_witness :
    (⟨["A", "B"].take 1, ["A", "B"].drop 1⟩ : Rule)
        ∈ (Apriori.GenerateRules
            ⟨FloatVal.fin (1 / 2), FloatVal.fin (7 / 10), Apriori.defaultMinLift⟩
            ⟨[("A", 0), ("B", 1), ("C", 2)], 3⟩ [⟨[7]⟩] ["A", "B", "C"]).map (fun e => e.1)
      ∧ ["A", "B", "C"].Nodup
      ∧ (∀ x ∈ (⟨["A"], ["B"]⟩ : Rule).antecedent, x ∉ (⟨["A"], ["B"]⟩ : Rule).consequent)
      ∧ ∀ p, ((⟨["A"], ["B"]⟩ : Rule).ToItemset ⟨[("A", 0), ("B", 1), ("C", 2)], 3⟩).member p
          = decide (p ∈ ((⟨["A"], ["B"]⟩ : Rule).antecedent
              ++ (⟨["A"], ["B"]⟩ : Rule).consequent).map
              (Items.GetIndex ⟨[("A", 0), ("B", 1), ("C", 2)], 3⟩)) :=
  have h := C11_rules_partition_a_subset
    ⟨FloatVal.fin (1 / 2), FloatVal.fin (7 / 10), Apriori.defaultMinLift⟩
    ⟨[("A", 0), ("B", 1), ("C", 2)], 3⟩ [⟨[7]⟩] ["A", "B", "C"] (by decide)
  have hr := h.1 ⟨["A"], ["B"]⟩ (by decide!)
  ⟨h.2.2.1 ["A", "B"] (by decide) (by decide) 1 (by decide) (by decide), by decide,
    hr.2.2.1, hr.2.2.2.2.2.1⟩

/-- C20, evaluated where it fails: with nine labels and `minSupport = 0.5` the itemset
`{a0, a1}` has support 2/3 and is the final frequent itemset; it has one block, so the member
listing reads `HasItem(8)` past its storage and its labels are not determined. When that
read yields a set bit the labels are `a1, a8, a0`, and among the rules built from them is
`a1 a8 -> a0`: the support of its antecedent is 0 and its confidence is `NaN`, the quotient
of `0` by `0`. -/
theorem C20_listing_past_storage_gives_zero_support :
    FloatVal.gt (FloatVal.fin (1 / 2)) (FloatVal.fin 0) = true
      ∧ (Apriori.Apriori Inputs.nineItems Inputs.nineTransactions (FloatVal.fin (1 / 2))
          (FloatVal.fin (7 / 10)) Apriori.defaultMinLift).frequentItemsets
          = [(Itemset.empty.AddItem 0).AddItem 1]
      ∧ Apriori.Support ⟨FloatVal.fin (1 / 2), FloatVal.fin (7 / 10), Apriori.defaultMinLift⟩
          Inputs.nineTransactions ((Itemset.empty.AddItem 0).AddItem 1) = FloatVal.fin (2 / 3)
      ∧ (∀ t ∈ Inputs.nineTransactions, t.WellFormed ∧ t.m_Blocks.length ≤ 8)
      ∧ (∀ e ∈ Inputs.nineItems.m_Items, e.2 < 64)
      ∧ ((Itemset.empty.AddItem 0).AddItem 1).HasItem 8 = none
      ∧ Apriori.frequentItems Inputs.nineItems ((Itemset.empty.AddItem 0).AddItem 1) = none
      ∧ (Apriori.Apriori Inputs.nineItems Inputs.nineTransactions (FloatVal.fin (1 / 2))
          (FloatVal.fin (7 / 10)) Apriori.defaultMinLift).listing = none
      ∧ (⟨["a1", "a8"], ["a0"]⟩ : Rule)
          ∈ (Apriori.GenerateRules
              ⟨FloatVal.fin (1 / 2), FloatVal.fin (7 / 10), Apriori.defaultMinLift⟩
              Inputs.nineItems Inputs.nineTransactions ["a1", "a8", "a0"]).map (fun e => e.1)
      ∧ Apriori.Support ⟨FloatVal.fin (1 / 2), FloatVal.fin (7 / 10), Apriori.defaultMinLift⟩
          Inputs.nineTransactions
          ((⟨["a1", "a8"], ["a0"]⟩ : Rule).GetAntecedent Inputs.nineItems) = FloatVal.fin 0
      ∧ Apriori.Confidence ⟨FloatVal.fin (1 / 2), FloatVal.fin (7 / 10), Apriori.defaultMinLift⟩
          Inputs.nineItems Inputs.nineTransactions ⟨["a1", "a8"], ["a0"]⟩ = FloatVal.nan := by
  decide!

end BitsApriori
